import Mathlib

/-!
A verification development for the `pbrt-v3` cloud ray-tracing worker
(`LambdaWorker` in the worker translation unit, `src/messages/utils.cpp`,
`src/util/util.h`).

Each definition is a shallow embedding of one piece of the C++ source:
pure functions become Lean functions, the worker's mutable state becomes
explicit records that the handlers transform, `std::map` / `std::set`
containers become association lists / membership-queried lists, machine
integers become `Nat`.  Source locations are cited in the doc comments.
All definitions come first, then the theorems.
-/

namespace PbrtWorker

/-! ## Association-list model of `std::map` and `std::set` -/

/-- Map lookup, `m.find(k)`: `some v` when key `k` is present. -/
def lookupO {α : Type} : List (Nat × α) → Nat → Option α
  | [], _ => none
  | (k', v) :: rest, k => if k' = k then some v else lookupO rest k

/-- Map lookup with a default, as in reading `m[k]` of a `std::map` whose
missing keys act as default-initialized values. -/
def lookupD {α : Type} (m : List (Nat × α)) (k : Nat) (d : α) : α :=
  (lookupO m k).getD d

/-- Update `m[k]` through `f` on a `std::map`, inserting `f d` (with `d` the
default-constructed value) when `k` is absent. -/
def updA {α : Type} (f : α → α) (d : α) : List (Nat × α) → Nat → List (Nat × α)
  | [], k => [(k, f d)]
  | (k', v) :: rest, k =>
      if k' = k then (k', f v) :: rest else (k', v) :: updA f d rest k

/-- Push one element at the back of `m[k]` on a map of deques
(creating the deque if the key is absent), `m[k].push_back(x)`. -/
def appendAt {α : Type} (m : List (Nat × List α)) (k : Nat) (x : α) :
    List (Nat × List α) :=
  updA (· ++ [x]) [] m k

/-- Append a whole list at the back of `m[k]`. -/
def appendListAt {α : Type} (m : List (Nat × List α)) (k : Nat) (xs : List α) :
    List (Nat × List α) :=
  updA (· ++ xs) [] m k

/-- Overwrite `m[k] = v`, inserting the key if absent. -/
def setAt {α : Type} (m : List (Nat × α)) (k : Nat) (v : α) : List (Nat × α) :=
  updA (fun _ => v) v m k

/-- The side effect of merely evaluating `m[k]` on a `std::map`:
a default-constructed value is inserted when `k` is absent. -/
def touch {α : Type} (m : List (Nat × α)) (k : Nat) (d : α) : List (Nat × α) :=
  updA id d m k

/-- Set insertion, `std::set::insert`. -/
def insertSet (s : List Nat) (t : Nat) : List Nat :=
  if t ∈ s then s else s ++ [t]

/-- Set removal, `std::set::erase`. -/
def eraseSet (s : List Nat) (t : Nat) : List Nat :=
  s.filter (fun x => x ≠ t)

/-! ## Constants

`UDP_MTU_BYTES` is defined at the top of the worker translation unit
(`constexpr size_t UDP_MTU_BYTES{1350};`). -/

def UDP_MTU_BYTES : Nat := 1350

/-- Modelled from the spec: `PACKET_TIMEOUT` is declared in `lambda-worker.h`,
which is not under `src/`; spec §6 fixes it at 1 s (expressed here in
milliseconds).  No theorem below depends on its numeric value. -/
def PACKET_TIMEOUT : Nat := 1000

/-- Modelled from the spec: `KEEP_ALIVE_INTERVAL` is declared in
`lambda-worker.h`, which is not under `src/`; spec §6 fixes it at 1 s
(expressed here in milliseconds).  No theorem below depends on its value. -/
def KEEP_ALIVE_INTERVAL : Nat := 1000

/-! ## `pluralize` (`src/util/util.h`, lines 18–20)

```cpp
inline std::string pluralize( const std::string & word, const size_t count ) {
    return word + (count == 1 ? "s" : "");
}
```
-/

/-- Shallow embedding of `pluralize`. -/
def pluralize (word : String) (count : Nat) : String :=
  word ++ (if count == 1 then "s" else "")

/-! ## `ParamSet` protobuf conversions (`src/messages/utils.cpp`)

`to_protobuf(const ParamSet&)` (lines 195–228) copies each typed parameter
list of the `ParamSet` into the corresponding repeated field of the protobuf
message; the loop over `ps.point2fs` appears twice (lines 216 and 220).
`from_protobuf(const protobuf::ParamSet&)` (lines 493–544) adds each proto
item back with the matching `Add*` call; for textures it keeps only the first
value of each item (`break; /* only one value for texture */`). -/

/-- One named, typed parameter: a `ParamSetItem` and equally a proto item
(`name` plus repeated `values`).  Concrete value payloads (floats, points,
spectra, strings) are abstracted to `Int`, since both conversion directions
copy values verbatim. -/
structure ParamItem where
  name : String
  values : List Int
deriving DecidableEq, Repr

/-- Modelled from the spec: the `ParamSet` container itself lives in
`core/paramset.{h,cpp}`, which is not under `src/` (the spec treats it as an
out-of-scope collaborator).  It is modelled as the eleven typed lists of
parameter items that `to_protobuf` iterates.  Its `Add*` operations follow
upstream pbrt-v3 `core/paramset.cpp`: each `AddX(name, values, n)` first
calls `EraseX(name)` — which removes the first stored item of that kind with
that name — and then pushes the new item at the back; `AddTexture(name,
value)` likewise erases by name and stores exactly one value. -/
structure PbrtParamSet where
  bools : List ParamItem
  ints : List ParamItem
  floats : List ParamItem
  point2fs : List ParamItem
  vector2fs : List ParamItem
  point3fs : List ParamItem
  vector3fs : List ParamItem
  normals : List ParamItem
  spectra : List ParamItem
  strings : List ParamItem
  textures : List ParamItem
deriving DecidableEq, Repr

/-- The `protobuf::ParamSet` message: the same eleven repeated fields. -/
structure ProtoParamSet where
  bools : List ParamItem
  ints : List ParamItem
  floats : List ParamItem
  point2fs : List ParamItem
  vector2fs : List ParamItem
  point3fs : List ParamItem
  vector3fs : List ParamItem
  normals : List ParamItem
  spectra : List ParamItem
  strings : List ParamItem
  textures : List ParamItem
deriving DecidableEq, Repr

/-- Shallow embedding of `to_protobuf(const ParamSet&)` (utils.cpp 195–228).
Each loop `for (const auto& i : ps.X) { a?(*proto_params.add_X(), i); }`
appends the list `ps.X` to the proto field `X`; the `ps.point2fs` loop
appears at line 216 and again at line 220, so the proto `point2fs` field
receives the list twice. -/
def to_protobuf_ParamSet (ps : PbrtParamSet) : ProtoParamSet :=
  { bools := ps.bools
    ints := ps.ints
    floats := ps.floats
    point2fs := ps.point2fs ++ ps.point2fs
    vector2fs := ps.vector2fs
    point3fs := ps.point3fs
    vector3fs := ps.vector3fs
    normals := ps.normals
    spectra := ps.spectra
    strings := ps.strings
    textures := ps.textures }

/-- The `EraseX(name)` of upstream `core/paramset.cpp`: remove the first
stored item of this kind whose name matches, if any (the loop returns after
the first hit). -/
def eraseItem (n : String) : List ParamItem → List ParamItem
  | [] => []
  | x :: rest => if x.name = n then rest else x :: eraseItem n rest

/-- The `AddX` of upstream `core/paramset.cpp`: `EraseX(item.name)` followed
by `push_back(item)`. -/
def addItem (l : List ParamItem) (it : ParamItem) : List ParamItem :=
  eraseItem it.name l ++ [it]

/-- The texture loop of `from_protobuf` (utils.cpp 536–541): call
`AddTexture(item.name, value)` on the first value only
(`break; /* only one value for texture */`), skipping items with no value. -/
def addTextureProto (l : List ParamItem) (it : ParamItem) : List ParamItem :=
  match it.values.head? with
  | none => l
  | some v => addItem l ⟨it.name, [v]⟩

/-- Shallow embedding of `from_protobuf(const protobuf::ParamSet&)`
(utils.cpp 493–544).  Starting from a fresh `ParamSet`, every proto item is
added back in order through the matching `Add*` call — each of which erases
any previously stored same-name item of that kind before appending; the
texture loop keeps only the first value of each item. -/
def from_protobuf_ParamSet (pp : ProtoParamSet) : PbrtParamSet :=
  { bools := pp.bools.foldl addItem []
    ints := pp.ints.foldl addItem []
    floats := pp.floats.foldl addItem []
    point2fs := pp.point2fs.foldl addItem []
    vector2fs := pp.vector2fs.foldl addItem []
    point3fs := pp.point3fs.foldl addItem []
    vector3fs := pp.vector3fs.foldl addItem []
    normals := pp.normals.foldl addItem []
    spectra := pp.spectra.foldl addItem []
    strings := pp.strings.foldl addItem []
    textures := pp.textures.foldl addTextureProto [] }

/-! ## Worker queues and ray classification (worker unit, lines 519–541 and
1092–1107) -/

/-- The slice of a `RayState` the queue logic observes: its current treelet
(`ray->CurrentTreelet()`) and an identity for telling rays apart. -/
structure RayState where
  currentTreelet : Nat
  pathId : Nat
deriving DecidableEq, Repr

/-- Peer connection state (`Worker::State`, spec §4.3): `Connecting` is the
initial state, `Connected` once both interfaces have handshaken. -/
inductive PeerState
  | Connecting
  | Connected
deriving DecidableEq, Repr

/-- A peer entry (`struct Worker`): seed, FSM state, the two per-interface
`connected` flags, the set of treelets the peer owns, the next keep-alive
deadline and the connection-attempt counter. -/
structure Worker where
  seed : Nat
  state : PeerState
  connected0 : Bool
  connected1 : Bool
  treelets : List Nat
  nextKeepAlive : Nat
  tries : Nat
deriving DecidableEq, Repr

/-- Modelled from the spec: the `Worker` struct initializer lives in
`lambda-worker.h`, not under `src/`; spec §4.3 makes `Connecting` the initial
state with neither interface connected. -/
def initWorkerPeer : Worker :=
  { seed := 0, state := PeerState.Connecting, connected0 := false,
    connected1 := false, treelets := [], nextKeepAlive := 0, tries := 0 }

/-- The worker state observed and mutated by ray classification and by the
`ConnectionResponse` handler. -/
structure WorkerState where
  treeletIds : List Nat
  treeletToWorker : List (Nat × List Nat)
  rayQueue : List RayState
  outQueue : List (Nat × List RayState)
  outQueueSize : Nat
  pendingQueue : List (Nat × List RayState)
  pendingQueueSize : Nat
  neededTreelets : List Nat
  requestedTreelets : List Nat
  peers : List (Nat × Worker)
  mySeed : Nat
deriving DecidableEq, Repr

/-- Shallow embedding of `LambdaWorker::pushRayQueue` (lines 1129–1132):
`rayQueue.push_back(move(state))`. -/
def pushRayQueue (st : WorkerState) (ray : RayState) : WorkerState :=
  { st with rayQueue := st.rayQueue ++ [ray] }

/-- Shallow embedding of the per-ray classification performed both on rays
leaving processing in `handleRayQueue` (lines 519–541) and on newly generated
rays in `generateRays` (lines 1092–1107); the two code sites are verbatim the
same decision.  `t = ray.CurrentTreelet()`: own treelet ⇒ ray queue; treelet
with a known worker ⇒ `outQueue[t]` and `outQueueSize++`; otherwise
`pendingQueue[t]`, `pendingQueueSize++` and `neededTreelets.insert(t)`. -/
def classifyProcessedRay (st : WorkerState) (ray : RayState) : WorkerState :=
  let nextTreelet := ray.currentTreelet
  if nextTreelet ∈ st.treeletIds then
    pushRayQueue st ray
  else if (lookupO st.treeletToWorker nextTreelet).isSome then
    { st with outQueue := appendAt st.outQueue nextTreelet ray,
              outQueueSize := st.outQueueSize + 1 }
  else
    { st with neededTreelets := insertSet st.neededTreelets nextTreelet,
              pendingQueue := appendAt st.pendingQueue nextTreelet ray,
              pendingQueueSize := st.pendingQueueSize + 1 }

/-! ## `ConnectionResponse` processing (worker unit, lines 1247–1298) -/

/-- Mark `peer.connected[addressNo] = true` (line 1262). -/
def markConnected (p : Worker) (addressNo : Fin 2) : Worker :=
  if addressNo = 0 then { p with connected0 := true }
  else { p with connected1 := true }

/-- The peer-record part of the `ConnectionResponse` handler
(lines 1257–1272): store `proto.my_seed()` in `peer.seed`; when the peer is
not yet `Connected` and `proto.your_seed()` matches `mySeed`, mark the
interface connected, move to `Connected` exactly when both flags are set, and
on completion arm the keep-alive deadline. -/
def respondPeer (mySeed now : Nat) (p : Worker) (protoMySeed yourSeed : Nat)
    (addressNo : Fin 2) : Worker :=
  let p1 := { p with seed := protoMySeed }
  if p1.state ≠ PeerState.Connected ∧ yourSeed = mySeed then
    let p2 := markConnected p1 addressNo
    let p3 := { p2 with
      state := if p2.connected0 && p2.connected1 then PeerState.Connected
               else PeerState.Connecting }
    if p3.state = PeerState.Connected then
      { p3 with nextKeepAlive := now + KEEP_ALIVE_INTERVAL }
    else p3
  else p1

/-- The payload of a `protobuf::ConnectResponse` (worker id, the sender seed,
the echoed seed, the interface index, and the treelets the sender owns). -/
structure ConnectResponse where
  workerId : Nat
  mySeed : Nat
  yourSeed : Nat
  addressNo : Fin 2
  treeletIds : List Nat
deriving DecidableEq, Repr

/-- One iteration of the treelet loop of the `ConnectionResponse` handler
(lines 1274–1293): record the treelet on the peer and in
`treeletToWorker[t]`, erase it from `neededTreelets` and `requestedTreelets`,
and, when `pendingQueue` has an entry for `t`, bump the counters and move the
pending rays FIFO onto `outQueue[t]`. -/
def announceTreelet (wid : Nat) (st : WorkerState) (t : Nat) : WorkerState :=
  let st1 :=
    { st with
      peers := updA (fun p => { p with treelets := insertSet p.treelets t })
        initWorkerPeer st.peers wid,
      treeletToWorker := appendAt st.treeletToWorker t wid,
      neededTreelets := eraseSet st.neededTreelets t,
      requestedTreelets := eraseSet st.requestedTreelets t }
  match lookupO st1.pendingQueue t with
  | none => st1
  | some pend =>
      { st1 with
        outQueueSize := st1.outQueueSize + pend.length,
        pendingQueueSize := st1.pendingQueueSize - pend.length,
        outQueue := appendListAt st1.outQueue t pend,
        pendingQueue := setAt st1.pendingQueue t [] }

/-- Shallow embedding of `processMessage`'s `OpCode::ConnectionResponse` case
(lines 1247–1298): unknown peers are ignored; the peer record is updated via
`respondPeer`; the treelet-announcement loop runs only when this response
moved the peer to `Connected`. -/
def processConnectionResponse (now : Nat) (st : WorkerState)
    (proto : ConnectResponse) : WorkerState :=
  match lookupO st.peers proto.workerId with
  | none => st
  | some peer =>
      let peer1 := respondPeer st.mySeed now peer proto.mySeed proto.yourSeed
        proto.addressNo
      let st1 := { st with peers := setAt st.peers proto.workerId peer1 }
      if peer.state ≠ PeerState.Connected ∧ proto.yourSeed = st.mySeed ∧
          peer1.state = PeerState.Connected then
        proto.treeletIds.foldl (announceTreelet proto.workerId) st1
      else st1

/-- The peer states reachable through the worker's handlers: a peer is
created in the initial `Connecting` state (`handleConnectTo`, lines
1147–1160), its FSM fields change only in the `ConnectionResponse` case
(`respondPeer`), and `handlePeers` / the treelet loop additionally bump
`tries`, `nextKeepAlive` and `treelets`. -/
inductive PeerReachable (mySeed : Nat) : Worker → Prop
  | init : PeerReachable mySeed initWorkerPeer
  | respond (p : Worker) (protoMySeed yourSeed now : Nat) (i : Fin 2) :
      PeerReachable mySeed p →
      PeerReachable mySeed (respondPeer mySeed now p protoMySeed yourSeed i)
  | bumpTries (p : Worker) (n : Nat) :
      PeerReachable mySeed p → PeerReachable mySeed { p with tries := n }
  | bumpKeepAlive (p : Worker) (n : Nat) :
      PeerReachable mySeed p →
      PeerReachable mySeed { p with nextKeepAlive := n }
  | addTreelet (p : Worker) (t : Nat) :
      PeerReachable mySeed p →
      PeerReachable mySeed { p with treelets := insertSet p.treelets t }

/-! ## Ray packets, packet assembly (`handleOutQueue`, lines 546–642),
retransmission (`handleRayAcknowledgements`, lines 829–857) and sending
(`handleUdpSend`, lines 862–927) -/

/-- A `RayPacket`: destination address and worker id, target treelet, ray
count, the serialized-ray payload (modelled by the list of serialized ray
lengths, in order), reliability flag, sequence number, attempt counter,
retransmission flag and tracking flag. -/
structure RayPacket where
  destination : Nat
  destinationId : Nat
  targetTreelet : Nat
  rayCount : Nat
  raySizes : List Nat
  reliable : Bool
  sequenceNumber : Nat
  attempt : Nat
  retransmission : Bool
  tracked : Bool
deriving DecidableEq, Repr

/-- The payload length of a ray packet: each ray is framed by a 4-byte length
prefix (`const size_t len = rayStr.length() + 4;`, line 596), so the bytes
the `RecordWriter` emits for the packet are `Σ (4 + |ray|)`. -/
def payloadLength (p : RayPacket) : Nat :=
  (p.raySizes.map (fun r => r + 4)).sum

/-- What retransmission does to a packet (lines 851–852):
`packet.incrementAttempts(); packet.retransmission = true;` — nothing else
is touched (the destination/sequence rewrite at lines 838–849 is dead code,
guarded by `if (false && ...)`). -/
def retransmitPacket (p : RayPacket) : RayPacket :=
  { p with attempt := p.attempt + 1, retransmission := true }

/-- The retransmission loop of `handleRayAcknowledgements` (lines 830–857):
```cpp
while (!receivedAcks.empty() && !outstandingRayPackets.empty() &&
       outstandingRayPackets.front().first <= now) {
    auto& packet = outstandingRayPackets.front().second;
    auto& thisReceivedAcks = receivedAcks[packet.destination];
    if (!thisReceivedAcks.contains(packet.sequenceNumber)) {
        packet.incrementAttempts();
        packet.retransmission = true;
        rayPackets.push_back(move(packet));
    }
    outstandingRayPackets.pop_front();
}
```
Arguments: the current time, `receivedAcks` (per-source set of acked
sequence numbers; evaluating `receivedAcks[dest]` default-inserts an empty
set), `outstandingRayPackets` (deadline, packet) and `rayPackets`; returns
the three updated containers. -/
def retransmitOutstanding (now : Nat) :
    List (Nat × List Nat) → List (Nat × RayPacket) → List RayPacket →
      List (Nat × List Nat) × List (Nat × RayPacket) × List RayPacket
  | acks, [], rps => (acks, [], rps)
  | acks, (deadline, p) :: rest, rps =>
      if acks ≠ [] ∧ deadline ≤ now then
        let thisReceivedAcks := lookupD acks p.destination []
        let acks1 := touch acks p.destination []
        if p.sequenceNumber ∈ thisReceivedAcks then
          retransmitOutstanding now acks1 rest rps
        else
          retransmitOutstanding now acks1 rest (rps ++ [retransmitPacket p])
      else (acks, (deadline, p) :: rest, rps)

/-- The inner ray-packing loop of `handleOutQueue` (lines 588–611): starting
from the running `packetLen` and the rays already written (`acc`), pop rays
while `packetLen < UDP_MTU_BYTES`; a ray whose framed length `len = |ray|+4`
would push `packetLen` past the MTU is handed back as the carried-over ray;
otherwise it is written and `packetLen += len`.  Returns the packed rays, the
carried-over ray (if any) and the remaining out-queue. -/
def packRays (packetLen : Nat) (acc : List Nat) :
    List Nat → List Nat × Option Nat × List Nat
  | [] => (acc, none, [])
  | r :: outRays =>
      if packetLen < UDP_MTU_BYTES then
        if r + 4 + packetLen > UDP_MTU_BYTES then (acc, some r, outRays)
        else packRays (packetLen + (r + 4)) (acc ++ [r]) outRays
      else (acc, none, r :: outRays)

/-- Construction of one `RayPacket` by `handleOutQueue` (lines 618–627):
`rayCount` rays, the serialized payload, `config.sendReliably`, the current
per-destination sequence number and the sampled tracking flag; `attempt`
starts at 0 and `retransmission` false (spec §4.6.1). -/
def mkRayPacket (dest destId treelet : Nat) (reliable : Bool) (seq : Nat)
    (tracked : Bool) (rays : List Nat) : RayPacket :=
  { destination := dest, destinationId := destId, targetTreelet := treelet,
    rayCount := rays.length, raySizes := rays, reliable := reliable,
    sequenceNumber := seq, attempt := 0, retransmission := false,
    tracked := tracked }

/-- The outer packet loop of `handleOutQueue` for one out-queue entry
(lines 566–638): `while (!outRays.empty() || !unpackedRayStr.empty())` build
a packet — starting from `packetLen = 25` when there is no carried-over ray,
or from `packetLen = |unpacked|+4` with the carried ray already written
(lines 576–586) — then allocate the next sequence number (`peerSeqNo++`,
line 637).  `bd` is the per-packet Bernoulli draw `packetLogBD(randEngine)`
(line 616), indexed here by the packet's sequence number.  Returns the
packets in order together with the final value of
`sequenceNumbers[peer.address[0]]`. -/
def handleOutQueuePackets (dest destId treelet : Nat) (reliable : Bool)
    (bd : Nat → Bool) :
    Option Nat → List Nat → Nat → List RayPacket × Nat
  | some u, outRays, seq =>
      let res := packRays (u + 4) [u] outRays
      let rest := handleOutQueuePackets dest destId treelet reliable bd
        res.2.1 res.2.2 (seq + 1)
      (mkRayPacket dest destId treelet reliable seq (bd seq) res.1 :: rest.1,
       rest.2)
  | none, r :: outRays0, seq =>
      let res := packRays 25 [] (r :: outRays0)
      let rest := handleOutQueuePackets dest destId treelet reliable bd
        res.2.1 res.2.2 (seq + 1)
      (mkRayPacket dest destId treelet reliable seq (bd seq) res.1 :: rest.1,
       rest.2)
  | none, [], seq => ([], seq)
termination_by carry outRays _ =>
  2 * outRays.length + (if carry.isSome then 1 else 0)
decreasing_by
  all_goals
    have key : ∀ (rays : List Nat) (pl : Nat) (acc : List Nat),
        (2 * (packRays pl acc rays).2.2.length
            + (if (packRays pl acc rays).2.1.isSome then 1 else 0)
          ≤ 2 * rays.length) ∧
        (pl < UDP_MTU_BYTES → rays ≠ [] →
          2 * (packRays pl acc rays).2.2.length
              + (if (packRays pl acc rays).2.1.isSome then 1 else 0)
            < 2 * rays.length) := by
      intro rays
      induction rays with
      | nil =>
          intro pl acc
          refine ⟨?_, fun _ h => absurd rfl h⟩
          simp [packRays]
      | cons r rest ih =>
          intro pl acc
          by_cases h1 : pl < UDP_MTU_BYTES
          · by_cases h2 : r + 4 + pl > UDP_MTU_BYTES
            · have heq : packRays pl acc (r :: rest) = (acc, some r, rest) := by
                simp [packRays, h1, h2]
              rw [heq]
              refine ⟨?_, fun _ _ => ?_⟩ <;>
                · simp only [Option.isSome_some, if_true, List.length_cons]
                  omega
            · have heq : packRays pl acc (r :: rest)
                  = packRays (pl + (r + 4)) (acc ++ [r]) rest := by
                simp [packRays, h1, h2]
              have hw := (ih (pl + (r + 4)) (acc ++ [r])).1
              rw [heq]
              refine ⟨le_trans hw ?_, fun _ _ => lt_of_le_of_lt hw ?_⟩ <;>
                · simp only [List.length_cons]
                  omega
          · have heq : packRays pl acc (r :: rest) = (acc, none, r :: rest) := by
              simp [packRays, h1]
            refine ⟨?_, fun hlt _ => absurd hlt h1⟩
            rw [heq]
            simp
  all_goals
    first
    | exact Nat.lt_succ_of_le (key outRays (u + 4) [u]).1
    | exact (key (r :: outRays0) 25 []).2 (by decide) (by simp)

/-! ## Reliable-message deduplication in `handleUdpReceive`
(worker unit, lines 929–999) -/

/-- The header fields of a reliable message that the deduplication path of
`handleUdpReceive` reads: the datagram's source address, `sequence_number()`,
`tracked()`, `attempt()` and `sender_id()`. -/
structure ReliableMsg where
  source : Nat
  sequenceNumber : Nat
  tracked : Bool
  attempt : Nat
  senderId : Nat
deriving DecidableEq, Repr

/-- The worker state observed by the reliable-message path of
`handleUdpReceive`: `toBeAcked` (per-source list of
`(seqNo, tracked, attempt)` triples), `receivedPacketSeqNos` (per-source set
of already-delivered sequence numbers), the completed-messages window kept
for the control-plane handler (`messages`), and the four ray queues, which
this path never touches. -/
structure ReceiveState where
  toBeAcked : List (Nat × List (Nat × Bool × Nat))
  receivedPacketSeqNos : List (Nat × List Nat)
  messages : List ReliableMsg
  rayQueue : List RayState
  outQueue : List (Nat × List RayState)
  pendingQueue : List (Nat × List RayState)
  finishedQueue : List RayState
deriving DecidableEq, Repr

/-- Shallow embedding of the reliable-message branch of `handleUdpReceive`
(lines 946–964):
```cpp
const auto seqNo = it->sequence_number();
toBeAcked[datagram.first].emplace_back(seqNo, it->tracked(), it->attempt());
auto& received = receivedPacketSeqNos[datagram.first];
if (received.contains(seqNo)) { it = messages.erase(it); continue; }
else { received.insert(seqNo); }
```
A duplicate is erased from the window (never delivered); a first-time
sequence number is recorded and the message stays in the window for the
control-plane handler. -/
def handleReliableMessage (st : ReceiveState) (m : ReliableMsg) : ReceiveState :=
  let st1 := { st with
    toBeAcked := appendAt st.toBeAcked m.source
      (m.sequenceNumber, m.tracked, m.attempt) }
  let received := lookupD st1.receivedPacketSeqNos m.source []
  if m.sequenceNumber ∈ received then
    st1
  else
    { st1 with
      receivedPacketSeqNos := updA (fun s => insertSet s m.sequenceNumber) []
        st1.receivedPacketSeqNos m.source,
      messages := st1.messages ++ [m] }

/-! ## `handleUdpSend` (worker unit, lines 862–927) -/

/-- A `ServicePacket`: destination address and worker id, the payload length,
the interface it must leave on, and the optional ack metadata. -/
structure ServicePacket where
  destination : Nat
  destinationId : Nat
  dataLength : Nat
  iface : Nat
  ackPacket : Bool
  ackId : Nat
  tracked : Bool
deriving DecidableEq, Repr

/-- The queues `handleUdpSend` reads and writes: `servicePackets`,
`rayPackets` and `outstandingRayPackets`. -/
structure SendState where
  servicePackets : List ServicePacket
  rayPackets : List RayPacket
  outstandingRayPackets : List (Nat × RayPacket)
deriving DecidableEq, Repr

/-- What a single `handleUdpSend` activation put on the wire. -/
inductive SentPacket
  | service (sp : ServicePacket)
  | ray (p : RayPacket)
deriving DecidableEq, Repr

/-- The service-packet scan of `handleUdpSend` (lines 877–892): walk
`servicePackets` in order, send and erase the first one whose `iface`
matches, and return immediately.  Returns the sent packet and the remaining
queue, or `none` when no queued service packet targets this interface. -/
def sendFirstService (iface : Nat) :
    List ServicePacket → Option (ServicePacket × List ServicePacket)
  | [] => none
  | sp :: rest =>
      if sp.iface = iface then some (sp, rest)
      else
        match sendFirstService iface rest with
        | some (s, rest1) => some (s, sp :: rest1)
        | none => none

/-- Shallow embedding of `handleUdpSend(iface)` (lines 862–927): service
packets drain first (at most one per activation); then
`if (iface != 0 || rayPackets.empty()) return;` — so ray packets go out only
on interface 0 — and the front ray packet is sent, with
`(now + PACKET_TIMEOUT, packet)` appended to `outstandingRayPackets` when it
is reliable, before `rayPackets.pop_front()`. -/
def handleUdpSend (iface now : Nat) (st : SendState) :
    SendState × Option SentPacket :=
  match sendFirstService iface st.servicePackets with
  | some (sp, rest) =>
      ({ st with servicePackets := rest }, some (SentPacket.service sp))
  | none =>
      if iface ≠ 0 then (st, none)
      else
        match st.rayPackets with
        | [] => (st, none)
        | p :: rest =>
            ({ st with
               rayPackets := rest,
               outstandingRayPackets :=
                 if p.reliable then
                   st.outstandingRayPackets ++ [(now + PACKET_TIMEOUT, p)]
                 else st.outstandingRayPackets },
             some (SentPacket.ray p))

/-! ## Concrete inputs used by witnesses and counterexamples -/

/-- A concrete reliable ray packet addressed to destination 7 with sequence
number 3. -/
def cxPacket : RayPacket :=
  { destination := 7, destinationId := 1, targetTreelet := 0, rayCount := 1,
    raySizes := [10], reliable := true, sequenceNumber := 3, attempt := 0,
    retransmission := false, tracked := false }

/-- The packets `handleOutQueue` assembles from serialized ray lengths
647, 696 and 646 (framed lengths 651, 700 and 650), starting at sequence
number 0 with no carried-over ray. -/
def cxPackets : List RayPacket :=
  (handleOutQueuePackets 0 1 2 true (fun _ => false) none [647, 696, 646] 0).1

/-- A placeholder packet for total list indexing in concrete statements. -/
def dummyPacket : RayPacket :=
  { destination := 0, destinationId := 0, targetTreelet := 0, rayCount := 0,
    raySizes := [], reliable := false, sequenceNumber := 0, attempt := 0,
    retransmission := false, tracked := false }

/-- A concrete parameter set with one two-valued point2f parameter and one
single-valued texture parameter. -/
def cxParamSet : PbrtParamSet :=
  { bools := [], ints := [], floats := [], point2fs := [⟨"uv", [1, 2]⟩],
    vector2fs := [], point3fs := [], vector3fs := [], normals := [],
    spectra := [], strings := [], textures := [⟨"tex", [7]⟩] }

/-- A concrete peer that has completed the handshake on both interfaces
(seed 9), reaching `Connected`. -/
def cxPeerBoth : Worker :=
  respondPeer 9 5 (respondPeer 9 4 initWorkerPeer 3 9 0) 3 9 1

/-- A concrete peer that has handshaken on interface 0 only. -/
def cxPeerHalf : Worker :=
  { seed := 0, state := PeerState.Connecting, connected0 := true,
    connected1 := false, treelets := [], nextKeepAlive := 0, tries := 0 }

/-- A concrete worker state with one ray pending for treelet 5 and peer 7
half-connected. -/
def cxPromoteState : WorkerState :=
  { treeletIds := [], treeletToWorker := [], rayQueue := [], outQueue := [],
    outQueueSize := 0, pendingQueue := [(5, [⟨5, 0⟩])], pendingQueueSize := 1,
    neededTreelets := [5], requestedTreelets := [5], peers := [(7, cxPeerHalf)],
    mySeed := 9 }

/-- A concrete `ConnectionResponse` from peer 7 on interface 1, with matching
seed, announcing treelet 5. -/
def cxPromoteProto : ConnectResponse :=
  { workerId := 7, mySeed := 3, yourSeed := 9, addressNo := 1,
    treeletIds := [5] }

/-- A concrete worker state owning treelet 4 and knowing a worker for
treelet 6. -/
def cxClassifyState : WorkerState :=
  { treeletIds := [4], treeletToWorker := [(6, [2])], rayQueue := [],
    outQueue := [], outQueueSize := 0, pendingQueue := [],
    pendingQueueSize := 0, neededTreelets := [], requestedTreelets := [],
    peers := [], mySeed := 1 }

end PbrtWorker

namespace PbrtWorker

/-! ## Helper lemmas about the container model -/

theorem lookupO_updA_self {α : Type} (f : α → α) (d : α)
    (m : List (Nat × α)) (k : Nat) :
    lookupO (updA f d m k) k = some (f (lookupD m k d)) := by
  induction m with
  | nil => simp [updA, lookupO, lookupD]
  | cons hd tl ih =>
      obtain ⟨k', v⟩ := hd
      by_cases h : k' = k <;>
        simp [updA, lookupO, lookupD, h, ih]

theorem lookupO_updA_ne {α : Type} (f : α → α) (d : α)
    (m : List (Nat × α)) (k k₀ : Nat) (hne : k ≠ k₀) :
    lookupO (updA f d m k) k₀ = lookupO m k₀ := by
  induction m with
  | nil => simp [updA, lookupO, hne]
  | cons hd tl ih =>
      obtain ⟨k', v⟩ := hd
      by_cases h : k' = k
      · subst h; simp [updA, lookupO, hne]
      · simp [updA, lookupO, h, ih]

theorem lookupD_updA_self {α : Type} (f : α → α) (d : α)
    (m : List (Nat × α)) (k : Nat) :
    lookupD (updA f d m k) k d = f (lookupD m k d) := by
  simp [lookupD, lookupO_updA_self]

theorem lookupD_updA_ne {α : Type} (f : α → α) (d d' : α)
    (m : List (Nat × α)) (k k₀ : Nat) (hne : k ≠ k₀) :
    lookupD (updA f d m k) k₀ d' = lookupD m k₀ d' := by
  simp [lookupD, lookupO_updA_ne _ _ _ _ _ hne]

theorem lookupD_appendAt_self {α : Type} (m : List (Nat × List α)) (k : Nat)
    (x : α) : lookupD (appendAt m k x) k [] = lookupD m k [] ++ [x] :=
  lookupD_updA_self _ _ m k

theorem lookupD_appendAt_ne {α : Type} (m : List (Nat × List α)) (k k₀ : Nat)
    (x : α) (hne : k ≠ k₀) :
    lookupD (appendAt m k x) k₀ [] = lookupD m k₀ [] :=
  lookupD_updA_ne _ _ _ m k k₀ hne

theorem lookupD_appendListAt_self {α : Type} (m : List (Nat × List α))
    (k : Nat) (xs : List α) :
    lookupD (appendListAt m k xs) k [] = lookupD m k [] ++ xs :=
  lookupD_updA_self _ _ m k

theorem lookupD_appendListAt_ne {α : Type} (m : List (Nat × List α))
    (k k₀ : Nat) (xs : List α) (hne : k ≠ k₀) :
    lookupD (appendListAt m k xs) k₀ [] = lookupD m k₀ [] :=
  lookupD_updA_ne _ _ _ m k k₀ hne

theorem lookupD_setAt_self {α : Type} (m : List (Nat × α)) (k : Nat)
    (v d : α) : lookupD (setAt m k v) k d = v := by
  simp [lookupD, setAt, lookupO_updA_self]

theorem lookupD_setAt_ne {α : Type} (m : List (Nat × α)) (k k₀ : Nat)
    (v d : α) (hne : k ≠ k₀) : lookupD (setAt m k v) k₀ d = lookupD m k₀ d :=
  lookupD_updA_ne _ _ _ m k k₀ hne

theorem mem_insertSet (s : List Nat) (t x : Nat) :
    x ∈ insertSet s t ↔ x ∈ s ∨ x = t := by
  unfold insertSet
  by_cases h : t ∈ s
  · simp only [if_pos h]
    constructor
    · exact Or.inl
    · rintro (hx | rfl)
      · exact hx
      · exact h
  · simp [if_neg h]

theorem not_mem_eraseSet (s : List Nat) (t : Nat) : t ∉ eraseSet s t := by
  simp [eraseSet]

theorem mem_eraseSet_of_ne (s : List Nat) (t x : Nat) (h : x ≠ t) :
    x ∈ eraseSet s t ↔ x ∈ s := by
  simp [eraseSet, h]

theorem not_mem_eraseSet_of_not_mem (s : List Nat) (t x : Nat) (h : x ∉ s) :
    x ∉ eraseSet s t := by
  intro hx
  exact h (List.mem_of_mem_filter hx)

end PbrtWorker

open PbrtWorker

/-- C10: for every string `word` and every `count`, `pluralize(word, count)`
returns `word` with the suffix `"s"` appended if and only if `count` equals
1, and returns `word` unchanged for every other count (including 0 and all
counts greater than 1). -/
theorem pluralize_appends_s_iff_count_one (word : String) (count : Nat) :
    (pluralize word count = word ++ "s" ↔ count = 1) ∧
      (count ≠ 1 → pluralize word count = word) := by
  constructor
  · constructor
    · intro h
      by_contra hc
      have h0 : pluralize word count = word ++ "" := by
        simp [pluralize, hc]
      rw [h0] at h
      have hlen := congrArg (fun s => s.length) h
      simp only [String.length_append] at hlen
      have : ("" : String).length = ("s" : String).length :=
        Nat.add_left_cancel hlen
      exact absurd this (by decide)
    · intro h
      simp [pluralize, h]
  · intro h
    simp [pluralize, h]

/-- Witness for C10 at `word = "ray"`, `count = 1` and `count = 0`. -/
theorem pluralize_appends_s_iff_count_one_witness :
    pluralize "ray" 1 = "ray" ++ "s" ∧ pluralize "ray" 0 = "ray" :=
  ⟨(pluralize_appends_s_iff_count_one "ray" 1).1.mpr rfl,
   (pluralize_appends_s_iff_count_one "ray" 0).2 (by decide)⟩

/-- C4: for every ray that leaves processing (post-trace in `handleRayQueue`
or newly generated in `generateRays`), with `t = ray.CurrentTreelet()`: if
`t` is in `treeletIds` the ray is pushed onto `rayQueue`; otherwise if `t`
has an entry in `treeletToWorker` the ray is pushed onto `outQueue[t]` and
`outQueueSize` is incremented by one; otherwise the ray is pushed onto
`pendingQueue[t]`, `pendingQueueSize` is incremented by one, and `t` is
inserted into `neededTreelets`.  In each case every other queue, counter and
set is untouched. -/
theorem classifyProcessedRay_cases (st : WorkerState) (ray : RayState) :
    (ray.currentTreelet ∈ st.treeletIds →
      (classifyProcessedRay st ray).rayQueue = st.rayQueue ++ [ray] ∧
      (classifyProcessedRay st ray).outQueue = st.outQueue ∧
      (classifyProcessedRay st ray).outQueueSize = st.outQueueSize ∧
      (classifyProcessedRay st ray).pendingQueue = st.pendingQueue ∧
      (classifyProcessedRay st ray).pendingQueueSize = st.pendingQueueSize ∧
      (classifyProcessedRay st ray).neededTreelets = st.neededTreelets) ∧
    (ray.currentTreelet ∉ st.treeletIds →
      (lookupO st.treeletToWorker ray.currentTreelet).isSome →
      lookupD (classifyProcessedRay st ray).outQueue ray.currentTreelet []
          = lookupD st.outQueue ray.currentTreelet [] ++ [ray] ∧
      (classifyProcessedRay st ray).outQueueSize = st.outQueueSize + 1 ∧
      (classifyProcessedRay st ray).rayQueue = st.rayQueue ∧
      (classifyProcessedRay st ray).pendingQueue = st.pendingQueue ∧
      (classifyProcessedRay st ray).pendingQueueSize = st.pendingQueueSize ∧
      (classifyProcessedRay st ray).neededTreelets = st.neededTreelets) ∧
    (ray.currentTreelet ∉ st.treeletIds →
      lookupO st.treeletToWorker ray.currentTreelet = none →
      lookupD (classifyProcessedRay st ray).pendingQueue ray.currentTreelet []
          = lookupD st.pendingQueue ray.currentTreelet [] ++ [ray] ∧
      (classifyProcessedRay st ray).pendingQueueSize
          = st.pendingQueueSize + 1 ∧
      ray.currentTreelet ∈ (classifyProcessedRay st ray).neededTreelets ∧
      (classifyProcessedRay st ray).rayQueue = st.rayQueue ∧
      (classifyProcessedRay st ray).outQueue = st.outQueue ∧
      (classifyProcessedRay st ray).outQueueSize = st.outQueueSize) := by
  refine ⟨fun hmem => ?_, fun hmem hsome => ?_, fun hmem hnone => ?_⟩
  · simp [classifyProcessedRay, pushRayQueue, hmem]
  · simp only [classifyProcessedRay, if_neg hmem, if_pos hsome,
      lookupD_appendAt_self]
    simp
  · simp only [classifyProcessedRay, if_neg hmem, hnone, Option.isSome_none,
      Bool.false_eq_true, if_false, lookupD_appendAt_self]
    simp [mem_insertSet]

/-- Witness for C4: a worker owning treelet 4, knowing a worker for treelet
6 and nothing else, classifies rays for treelets 4, 6 and 9 into the ray,
out and pending queues respectively. -/
theorem classifyProcessedRay_cases_witness :
    (classifyProcessedRay cxClassifyState ⟨4, 0⟩).rayQueue = [⟨4, 0⟩] ∧
      (classifyProcessedRay cxClassifyState ⟨6, 1⟩).outQueueSize = 1 ∧
      (classifyProcessedRay cxClassifyState ⟨9, 2⟩).pendingQueueSize = 1 ∧
      9 ∈ (classifyProcessedRay cxClassifyState ⟨9, 2⟩).neededTreelets := by
  refine ⟨?_, ?_, ?_, ?_⟩
  · have h := (classifyProcessedRay_cases cxClassifyState ⟨4, 0⟩).1 (by decide)
    rw [h.1]; rfl
  · have h := (classifyProcessedRay_cases cxClassifyState ⟨6, 1⟩).2.1
      (by decide) (by decide)
    rw [h.2.1]; rfl
  · have h := (classifyProcessedRay_cases cxClassifyState ⟨9, 2⟩).2.2
      (by decide) (by decide)
    rw [h.2.1]; rfl
  · exact ((classifyProcessedRay_cases cxClassifyState ⟨9, 2⟩).2.2
      (by decide) (by decide)).2.2.1

namespace PbrtWorker

theorem sendFirstService_eq_none (iface : Nat) (l : List ServicePacket) :
    sendFirstService iface l = none ↔ ∀ sp ∈ l, sp.iface ≠ iface := by
  induction l with
  | nil => simp [sendFirstService]
  | cons sp rest ih =>
      by_cases h : sp.iface = iface
      · simp [sendFirstService, h]
      · constructor
        · intro hnone x hx
          rcases List.mem_cons.mp hx with rfl | hx0
          · exact h
          · simp only [sendFirstService, if_neg h] at hnone
            rcases hr : sendFirstService iface rest with _ | pr
            · exact (ih.mp hr) x hx0
            · obtain ⟨s, rest1⟩ := pr
              rw [hr] at hnone
              exact absurd hnone (by simp)
        · intro hall
          have hrest : sendFirstService iface rest = none :=
            ih.mpr (fun x hx => hall x (List.mem_cons_of_mem _ hx))
          simp [sendFirstService, h, hrest]

theorem sendFirstService_eq_some (iface : Nat) (l : List ServicePacket)
    (sp : ServicePacket) (rest : List ServicePacket)
    (h : sendFirstService iface l = some (sp, rest)) :
    sp.iface = iface ∧
      ∃ pre post, l = pre ++ sp :: post ∧ rest = pre ++ post ∧
        ∀ x ∈ pre, x.iface ≠ iface := by
  induction l generalizing sp rest with
  | nil => simp [sendFirstService] at h
  | cons hd tl ih =>
      by_cases hh : hd.iface = iface
      · simp only [sendFirstService, if_pos hh, Option.some.injEq,
          Prod.mk.injEq] at h
        obtain ⟨rfl, rfl⟩ := h
        exact ⟨hh, [], tl, rfl, rfl, by simp⟩
      · simp only [sendFirstService, if_neg hh] at h
        rcases hr : sendFirstService iface tl with _ | pr
        · rw [hr] at h; exact absurd h (by simp)
        · obtain ⟨s, rest1⟩ := pr
          rw [hr] at h
          simp only [Option.some.injEq, Prod.mk.injEq] at h
          obtain ⟨rfl, rfl⟩ := h
          obtain ⟨h1, pre, post, hl, hrest, hpre⟩ := ih s rest1 hr
          refine ⟨h1, hd :: pre, post, by simp [hl], by simp [hrest], ?_⟩
          intro x hx
          rcases List.mem_cons.mp hx with rfl | hx0
          · exact hh
          · exact hpre x hx0

end PbrtWorker

/-- C7: when `handleUdpReceive` processes a reliable message whose
(source, sequence number) pair is already present in
`receivedPacketSeqNos`, it still appends `(seqNo, tracked, attempt)` to
`toBeAcked[source]` but erases the message without delivering it, leaving
the ray, out, pending and finished queues and the control-plane message
queue unchanged; a first-time sequence number is inserted into
`receivedPacketSeqNos` (which never shrinks) and the message is delivered
exactly once (re-processing the same message delivers nothing further). -/
theorem handleUdpReceive_duplicate_suppression (st : ReceiveState)
    (m : ReliableMsg) :
    (lookupD (handleReliableMessage st m).toBeAcked m.source []
        = lookupD st.toBeAcked m.source []
            ++ [(m.sequenceNumber, m.tracked, m.attempt)]) ∧
    (m.sequenceNumber ∈ lookupD st.receivedPacketSeqNos m.source [] →
      (handleReliableMessage st m).messages = st.messages ∧
      (handleReliableMessage st m).receivedPacketSeqNos
          = st.receivedPacketSeqNos ∧
      (handleReliableMessage st m).rayQueue = st.rayQueue ∧
      (handleReliableMessage st m).outQueue = st.outQueue ∧
      (handleReliableMessage st m).pendingQueue = st.pendingQueue ∧
      (handleReliableMessage st m).finishedQueue = st.finishedQueue) ∧
    (m.sequenceNumber ∉ lookupD st.receivedPacketSeqNos m.source [] →
      (handleReliableMessage st m).messages = st.messages ++ [m] ∧
      m.sequenceNumber
          ∈ lookupD (handleReliableMessage st m).receivedPacketSeqNos
              m.source []) ∧
    (∀ src n, n ∈ lookupD st.receivedPacketSeqNos src [] →
      n ∈ lookupD (handleReliableMessage st m).receivedPacketSeqNos src []) ∧
    ((handleReliableMessage (handleReliableMessage st m) m).messages
        = (handleReliableMessage st m).messages) := by
  by_cases h : m.sequenceNumber ∈ lookupD st.receivedPacketSeqNos m.source []
  · refine ⟨?_, fun _ => ?_, fun hc => absurd h hc, fun src n hn => ?_, ?_⟩
    · simp [handleReliableMessage, h, lookupD_appendAt_self]
    · simp [handleReliableMessage, h]
    · simp [handleReliableMessage, h]
      exact hn
    · have hdup : ∀ st2 : ReceiveState,
          m.sequenceNumber ∈ lookupD st2.receivedPacketSeqNos m.source [] →
            (handleReliableMessage st2 m).messages = st2.messages := by
        intro st2 h2
        simp [handleReliableMessage, h2]
      have hsame : (handleReliableMessage st m).receivedPacketSeqNos
          = st.receivedPacketSeqNos := by
        simp [handleReliableMessage, h]
      exact hdup _ (by rw [hsame]; exact h)
  · refine ⟨?_, fun hc => absurd hc h, fun _ => ?_, fun src n hn => ?_, ?_⟩
    · simp [handleReliableMessage, h, lookupD_appendAt_self]
    · constructor
      · simp [handleReliableMessage, h]
      · simp only [handleReliableMessage, if_neg h]
        rw [lookupD_updA_self]
        exact (mem_insertSet _ _ _).mpr (Or.inr rfl)
    · by_cases hsrc : m.source = src
      · subst hsrc
        simp only [handleReliableMessage, if_neg h]
        rw [lookupD_updA_self]
        exact (mem_insertSet _ _ _).mpr (Or.inl hn)
      · simp only [handleReliableMessage, if_neg h]
        rw [lookupD_updA_ne _ _ _ _ _ _ hsrc]
        exact hn
    · have hdup : ∀ st2 : ReceiveState,
          m.sequenceNumber ∈ lookupD st2.receivedPacketSeqNos m.source [] →
            (handleReliableMessage st2 m).messages = st2.messages := by
        intro st2 h2
        simp [handleReliableMessage, h2]
      have hmem : m.sequenceNumber
          ∈ lookupD (handleReliableMessage st m).receivedPacketSeqNos
              m.source [] := by
        simp only [handleReliableMessage, if_neg h]
        rw [lookupD_updA_self]
        exact (mem_insertSet _ _ _).mpr (Or.inr rfl)
      exact hdup _ hmem

/-- Witness for C7: a fresh message from source 2 with sequence number 5 is
delivered; the duplicate conjuncts are discharged on the state after the
first delivery. -/
theorem handleUdpReceive_duplicate_suppression_witness :
    (handleReliableMessage ⟨[], [], [], [], [], [], []⟩
        ⟨2, 5, false, 0, 3⟩).messages = [⟨2, 5, false, 0, 3⟩] ∧
      (handleReliableMessage
          (handleReliableMessage ⟨[], [], [], [], [], [], []⟩
            ⟨2, 5, false, 0, 3⟩) ⟨2, 5, false, 0, 3⟩).messages
        = (handleReliableMessage ⟨[], [], [], [], [], [], []⟩
            ⟨2, 5, false, 0, 3⟩).messages := by
  constructor
  · have h := (handleUdpReceive_duplicate_suppression
      ⟨[], [], [], [], [], [], []⟩ ⟨2, 5, false, 0, 3⟩).2.2.1 (by decide)
    rw [h.1]; rfl
  · exact (handleUdpReceive_duplicate_suppression
      ⟨[], [], [], [], [], [], []⟩ ⟨2, 5, false, 0, 3⟩).2.2.2.2

/-- C8: each activation of `handleUdpSend(iface)` transmits at most one
packet: if any queued service packet targets `iface`, the first such service
packet is sent and removed and no ray packet is sent in that activation; a
ray packet is sent only when `iface` is 0 and no interface-0 service packet
is queued (so no ray packet is ever sent on interface 1); and when the sent
ray packet is reliable, the entry `(now + PACKET_TIMEOUT, packet)` is
appended to `outstandingRayPackets`. -/
theorem handleUdpSend_one_packet (iface now : Nat) (st : SendState) :
    ((handleUdpSend iface now st).2 = none →
      (handleUdpSend iface now st).1 = st) ∧
    (∀ sp rest, sendFirstService iface st.servicePackets = some (sp, rest) →
      handleUdpSend iface now st
          = ({ st with servicePackets := rest }, some (SentPacket.service sp))
        ∧ sp.iface = iface ∧
        ∃ pre post, st.servicePackets = pre ++ sp :: post ∧
          rest = pre ++ post ∧ ∀ x ∈ pre, x.iface ≠ iface) ∧
    ((∃ sp ∈ st.servicePackets, sp.iface = iface) →
      ∀ p, (handleUdpSend iface now st).2 ≠ some (SentPacket.ray p)) ∧
    (iface ≠ 0 → ∀ p, (handleUdpSend iface now st).2
        ≠ some (SentPacket.ray p)) ∧
    ((∀ sp ∈ st.servicePackets, sp.iface ≠ 0) → iface = 0 →
      ∀ p rest, st.rayPackets = p :: rest →
        (handleUdpSend iface now st).2 = some (SentPacket.ray p) ∧
        (handleUdpSend iface now st).1.rayPackets = rest ∧
        (handleUdpSend iface now st).1.servicePackets = st.servicePackets ∧
        (handleUdpSend iface now st).1.outstandingRayPackets =
          (if p.reliable then
            st.outstandingRayPackets ++ [(now + PACKET_TIMEOUT, p)]
           else st.outstandingRayPackets)) := by
  refine ⟨?_, ?_, ?_, ?_, ?_⟩
  · intro hnone
    rcases hs : sendFirstService iface st.servicePackets with _ | pr
    · simp only [handleUdpSend, hs] at hnone ⊢
      by_cases hif : iface ≠ 0
      · simp [hif]
      · simp only [hif, if_false]
        rcases hr : st.rayPackets with _ | ⟨p, rest⟩
        · simp
        · simp only [hif, if_false, hr] at hnone
          exact absurd hnone (by simp)
    · obtain ⟨sp, rest⟩ := pr
      simp only [handleUdpSend, hs] at hnone
      exact absurd hnone (by simp)
  · intro sp rest hs
    refine ⟨by simp [handleUdpSend, hs], ?_, ?_⟩
    · exact (sendFirstService_eq_some iface _ sp rest hs).1
    · exact (sendFirstService_eq_some iface _ sp rest hs).2
  · intro hex p
    rcases hs : sendFirstService iface st.servicePackets with _ | pr
    · obtain ⟨sp, hsp, hspif⟩ := hex
      exact absurd hspif ((sendFirstService_eq_none iface _).mp hs sp hsp)
    · obtain ⟨s, rest⟩ := pr
      simp [handleUdpSend, hs]
  · intro hif p
    rcases hs : sendFirstService iface st.servicePackets with _ | pr
    · simp [handleUdpSend, hs, hif]
    · obtain ⟨s, rest⟩ := pr
      simp [handleUdpSend, hs]
  · intro hall hif p rest hr
    subst hif
    have hs : sendFirstService 0 st.servicePackets = none :=
      (sendFirstService_eq_none 0 _).mpr hall
    simp [handleUdpSend, hs, hr]

/-- Witness for C8: with no service packets queued and `cxPacket` (reliable)
at the front of `rayPackets`, an interface-0 activation at time 5 sends it
and records the outstanding entry; an interface-1 activation sends nothing. -/
theorem handleUdpSend_one_packet_witness :
    (handleUdpSend 0 5 ⟨[], [cxPacket], []⟩).2
        = some (SentPacket.ray cxPacket) ∧
      (handleUdpSend 0 5 ⟨[], [cxPacket], []⟩).1.outstandingRayPackets
        = [(5 + PACKET_TIMEOUT, cxPacket)] ∧
      ∀ p, (handleUdpSend 1 5 ⟨[], [cxPacket], []⟩).2
        ≠ some (SentPacket.ray p) := by
  have h := (handleUdpSend_one_packet 0 5 ⟨[], [cxPacket], []⟩).2.2.2.2
    (by simp) rfl cxPacket [] rfl
  refine ⟨h.1, ?_, ?_⟩
  · rw [h.2.2.2]
    simp [cxPacket]
  · exact (handleUdpSend_one_packet 1 5 ⟨[], [cxPacket], []⟩).2.2.2.1
      (by decide)

namespace PbrtWorker

theorem eraseItem_of_not_mem (n : String) (l : List ParamItem)
    (h : n ∉ l.map ParamItem.name) : eraseItem n l = l := by
  induction l with
  | nil => rfl
  | cons x rest ih =>
      simp only [List.map_cons, List.mem_cons, not_or] at h
      have hx : ¬(x.name = n) := fun he => h.1 he.symm
      simp [eraseItem, hx, ih h.2]

theorem foldl_addItem_fresh (l : List ParamItem) :
    ∀ acc : List ParamItem, (((acc ++ l).map ParamItem.name)).Nodup →
      List.foldl addItem acc l = acc ++ l := by
  induction l with
  | nil => intro acc _; simp
  | cons x rest ih =>
      intro acc hnd
      have hx : x.name ∉ acc.map ParamItem.name := by
        intro hmem
        rw [List.map_append] at hnd
        exact (List.nodup_append.mp hnd).2.2 hmem (by simp)
      have hstep : addItem acc x = acc ++ [x] := by
        unfold addItem
        rw [eraseItem_of_not_mem x.name acc hx]
      have hnd2 : (((acc ++ [x]) ++ rest).map ParamItem.name).Nodup := by
        rw [List.append_assoc]
        simpa using hnd
      simp only [List.foldl_cons, hstep, ih (acc ++ [x]) hnd2,
        List.append_assoc, List.singleton_append]

theorem foldl_addItem_rotate (l : List ParamItem) :
    ∀ b : List ParamItem, (((l ++ b).map ParamItem.name)).Nodup →
      List.foldl addItem (l ++ b) l = b ++ l := by
  induction l with
  | nil => intro b _; simp
  | cons x rest ih =>
      intro b hnd
      have hstep : addItem ((x :: rest) ++ b) x = rest ++ (b ++ [x]) := by
        simp [addItem, eraseItem]
      have hnd2 : ((rest ++ (b ++ [x])).map ParamItem.name).Nodup := by
        have hp1 : List.Perm ((x :: rest) ++ b) (rest ++ (b ++ [x])) := by
          have hp0 := (List.perm_append_singleton x (rest ++ b)).symm
          simpa [List.append_assoc] using hp0
        exact ((hp1.map ParamItem.name).nodup_iff).mp hnd
      simp only [List.foldl_cons, hstep, ih (b ++ [x]) hnd2]
      simp

theorem foldl_addItem_doubled (l : List ParamItem)
    (hnd : (l.map ParamItem.name).Nodup) :
    List.foldl addItem [] (l ++ l) = l := by
  rw [List.foldl_append]
  have h1 : List.foldl addItem [] l = l := by
    simpa using foldl_addItem_fresh l [] (by simpa using hnd)
  rw [h1]
  have h2 := foldl_addItem_rotate l [] (by simpa using hnd)
  simpa using h2

theorem foldl_addTextureProto_eq (l : List ParamItem)
    (h1 : ∀ it ∈ l, it.values.length = 1) :
    ∀ acc : List ParamItem,
      List.foldl addTextureProto acc l = List.foldl addItem acc l := by
  induction l with
  | nil => intro acc; rfl
  | cons it rest ih =>
      intro acc
      have hv : it.values.length = 1 := h1 it (List.mem_cons_self it rest)
      have hit : addTextureProto acc it = addItem acc it := by
        obtain ⟨n, vs⟩ := it
        rcases vs with _ | ⟨v, vrest⟩
        · exact absurd hv (by simp)
        · have : vrest = [] := by simpa using hv
          subst this
          rfl
      simp only [List.foldl_cons, hit]
      exact ih (fun x hx => h1 x (List.mem_cons_of_mem _ hx)) (addItem acc it)

end PbrtWorker

/-- Counterexample for C9: `cxParamSet` holds one point2f parameter; the
protobuf intermediate holds it twice (the duplicated loop at utils.cpp lines
216 and 220), but `from_protobuf` re-adds it through `AddPoint2f`, which
erases the same-name item before appending, so the round trip returns the
entry exactly once — refuting the claim that
`from_protobuf(to_protobuf(ps))` holds each point2f entry twice. -/
theorem paramset_roundtrip_counterexample :
    cxParamSet.point2fs = [⟨"uv", [1, 2]⟩] ∧
      (to_protobuf_ParamSet cxParamSet).point2fs
        = [⟨"uv", [1, 2]⟩, ⟨"uv", [1, 2]⟩] ∧
      (from_protobuf_ParamSet (to_protobuf_ParamSet cxParamSet)).point2fs
        = [⟨"uv", [1, 2]⟩] ∧
      ¬((from_protobuf_ParamSet
            (to_protobuf_ParamSet cxParamSet)).point2fs.count
              (⟨"uv", [1, 2]⟩ : ParamItem) = 2) := by
  decide

/-- C9 (amended): `to_protobuf(const ParamSet&)` appends the point2f
parameter list twice (the loop over `ps.point2fs` appears in two places), so
the protobuf message holds each point2f entry twice; but every `Add*` call
made by `from_protobuf` erases the previously stored same-name parameter
before appending, so the duplicates collapse on the way back: for every
`ParamSet` with at most one parameter per name within each kind (the
invariant `Add*` maintains) and single-valued textures,
`from_protobuf(to_protobuf(ps)) = ps` — every parameter kind, point2fs
included, is preserved exactly once, and the duplication is visible only in
the protobuf intermediate. -/
theorem paramset_roundtrip_point2fs_once (ps : PbrtParamSet)
    (hwf : (ps.bools.map ParamItem.name).Nodup ∧
      (ps.ints.map ParamItem.name).Nodup ∧
      (ps.floats.map ParamItem.name).Nodup ∧
      (ps.point2fs.map ParamItem.name).Nodup ∧
      (ps.vector2fs.map ParamItem.name).Nodup ∧
      (ps.point3fs.map ParamItem.name).Nodup ∧
      (ps.vector3fs.map ParamItem.name).Nodup ∧
      (ps.normals.map ParamItem.name).Nodup ∧
      (ps.spectra.map ParamItem.name).Nodup ∧
      (ps.strings.map ParamItem.name).Nodup ∧
      (ps.textures.map ParamItem.name).Nodup ∧
      ∀ it ∈ ps.textures, it.values.length = 1) :
    (to_protobuf_ParamSet ps).point2fs = ps.point2fs ++ ps.point2fs ∧
      from_protobuf_ParamSet (to_protobuf_ParamSet ps) = ps ∧
      ∀ it : ParamItem,
        (from_protobuf_ParamSet (to_protobuf_ParamSet ps)).point2fs.count it
          = ps.point2fs.count it := by
  obtain ⟨hb, hi, hf, hp2, hv2, hp3, hv3, hn, hsp, hstr, htex, htex1⟩ := hwf
  have hcopy : ∀ l : List ParamItem, (l.map ParamItem.name).Nodup →
      List.foldl addItem [] l = l := by
    intro l h
    simpa using foldl_addItem_fresh l [] (by simpa using h)
  have hident : from_protobuf_ParamSet (to_protobuf_ParamSet ps) = ps := by
    obtain ⟨b, i, f, p2, v2, p3, v3, n, sp, str, tex⟩ := ps
    simp only [from_protobuf_ParamSet, to_protobuf_ParamSet] at *
    rw [foldl_addTextureProto_eq tex htex1 []]
    simp only [PbrtParamSet.mk.injEq]
    exact ⟨hcopy b hb, hcopy i hi, hcopy f hf, foldl_addItem_doubled p2 hp2,
      hcopy v2 hv2, hcopy p3 hp3, hcopy v3 hv3, hcopy n hn, hcopy sp hsp,
      hcopy str hstr, hcopy tex htex⟩
  refine ⟨rfl, hident, fun it => ?_⟩
  rw [hident]

/-- Witness for C9 (amended) at `cxParamSet`: it satisfies the `ParamSet`
invariant, its protobuf intermediate holds the point2f entry twice, and the
round trip is the identity. -/
theorem paramset_roundtrip_point2fs_once_witness :
    (to_protobuf_ParamSet cxParamSet).point2fs
        = [⟨"uv", [1, 2]⟩, ⟨"uv", [1, 2]⟩] ∧
      from_protobuf_ParamSet (to_protobuf_ParamSet cxParamSet)
        = cxParamSet := by
  have h := paramset_roundtrip_point2fs_once cxParamSet
    (by refine ⟨?_, ?_, ?_, ?_, ?_, ?_, ?_, ?_, ?_, ?_, ?_, ?_⟩ <;> decide)
  exact ⟨by rw [h.1]; rfl, h.2.1⟩

namespace PbrtWorker

theorem respondPeer_preserves_inv (mySeed now : Nat) (p : Worker)
    (ms ys : Nat) (i : Fin 2)
    (ih : p.state = PeerState.Connected →
      p.connected0 = true ∧ p.connected1 = true) :
    (respondPeer mySeed now p ms ys i).state = PeerState.Connected →
      (respondPeer mySeed now p ms ys i).connected0 = true ∧
        (respondPeer mySeed now p ms ys i).connected1 = true := by
  obtain ⟨sd, stt, c0, c1, ts, ka, tr⟩ := p
  by_cases hy : ys = mySeed
  · cases stt <;> cases c0 <;> cases c1 <;> fin_cases i <;>
      simp_all [respondPeer, markConnected]
  · cases stt <;> simp_all [respondPeer, markConnected]

end PbrtWorker

/-- C6: in every reachable state, any peer whose state is `Connected` has
`connected[0] = true` and `connected[1] = true`; receiving a
`ConnectionResponse` with `your_seed == mySeed` marks only
`connected[addressNo]` and advances the state to `Connected` exactly when
both flags are set, so after a matching response on just one of the two
interfaces the peer's state remains `Connecting`. -/
theorem peer_connected_state_invariant :
    (∀ mySeed p, PeerReachable mySeed p → p.state = PeerState.Connected →
      p.connected0 = true ∧ p.connected1 = true) ∧
    (∀ mySeed now p ms i, p.state ≠ PeerState.Connected →
      ((respondPeer mySeed now p ms mySeed i).state = PeerState.Connected ↔
        (respondPeer mySeed now p ms mySeed i).connected0 = true ∧
          (respondPeer mySeed now p ms mySeed i).connected1 = true)) ∧
    (∀ mySeed now p ms ys i,
      ((i : Fin 2) = 0 →
        (respondPeer mySeed now p ms ys i).connected1 = p.connected1) ∧
      ((i : Fin 2) = 1 →
        (respondPeer mySeed now p ms ys i).connected0 = p.connected0)) ∧
    (∀ mySeed now ms i,
      (respondPeer mySeed now initWorkerPeer ms mySeed i).state
        = PeerState.Connecting) := by
  refine ⟨?_, ?_, ?_, ?_⟩
  · intro mySeed p hreach
    induction hreach with
    | init => intro h; exact absurd h (by simp [initWorkerPeer])
    | respond p ms ys now i hr ih => exact respondPeer_preserves_inv _ _ _ _ _ _ ih
    | bumpTries p n hr ih => intro h; exact ih h
    | bumpKeepAlive p n hr ih => intro h; exact ih h
    | addTreelet p t hr ih => intro h; exact ih h
  · intro mySeed now p ms i hstate
    obtain ⟨sd, stt, c0, c1, ts, ka, tr⟩ := p
    cases stt <;> cases c0 <;> cases c1 <;> fin_cases i <;>
      simp_all [respondPeer, markConnected]
  · intro mySeed now p ms ys i
    obtain ⟨sd, stt, c0, c1, ts, ka, tr⟩ := p
    by_cases hy : ys = mySeed <;>
      cases stt <;> cases c0 <;> cases c1 <;> fin_cases i <;>
        simp_all [respondPeer, markConnected]
  · intro mySeed now ms i
    fin_cases i <;> simp [respondPeer, markConnected, initWorkerPeer]

/-- Witness for C6: the peer `cxPeerBoth`, reachable by a matching response
on each interface, is `Connected`, and the invariant yields both flags;
after just the first response the state is still `Connecting`. -/
theorem peer_connected_state_invariant_witness :
    cxPeerBoth.connected0 = true ∧ cxPeerBoth.connected1 = true ∧
      (respondPeer 9 4 initWorkerPeer 3 9 0).state = PeerState.Connecting := by
  have hreach : PeerReachable 9 cxPeerBoth :=
    PeerReachable.respond _ 3 9 5 1 (PeerReachable.respond _ 3 9 4 0
      PeerReachable.init)
  have h := peer_connected_state_invariant.1 9 cxPeerBoth hreach
    (by decide)
  exact ⟨h.1, h.2, by decide⟩

namespace PbrtWorker

theorem mem_retransmitOutstanding_of_mem (now : Nat) :
    ∀ (out : List (Nat × RayPacket)) (acks : List (Nat × List Nat))
      (rps : List RayPacket) (q : RayPacket), q ∈ rps →
      q ∈ (retransmitOutstanding now acks out rps).2.2 := by
  intro out
  induction out with
  | nil => intro acks rps q hq; simpa [retransmitOutstanding] using hq
  | cons hd rest ih =>
      intro acks rps q hq
      obtain ⟨deadline, p⟩ := hd
      by_cases hg : acks ≠ [] ∧ deadline ≤ now
      · by_cases hmem : p.sequenceNumber ∈ lookupD acks p.destination []
        · simpa [retransmitOutstanding, hg, hmem] using
            ih (touch acks p.destination []) rps q hq
        · simpa [retransmitOutstanding, hg, hmem] using
            ih (touch acks p.destination []) (rps ++ [retransmitPacket p]) q
              (List.mem_append_left _ hq)
      · simpa [retransmitOutstanding, hg] using hq

end PbrtWorker

/-- Counterexample for C1: with one prior ack from source 5 (and none from
destination 7), the timed-out reliable packet `cxPacket` addressed to 7 is
still re-queued onto `rayPackets`, although `receivedAcks[7]` is empty —
contradicting the claim that such a packet is not re-queued regardless of
acks received from other sources. -/
theorem handleRayAck_liveness_gate_counterexample :
    lookupD [(5, [1])] cxPacket.destination [] = [] ∧
      (retransmitOutstanding 0 [(5, [1])] [(0, cxPacket)] []).2.2
        = [retransmitPacket cxPacket] := by
  decide

/-- C1 (amended): the front of `outstandingRayPackets` is retransmitted only
while its deadline is ≤ `now` and the `receivedAcks` map as a whole is
non-empty (at least one ack from *some* source); a timed-out packet is then
re-queued onto `rayPackets` whenever its own sequence number is not in
`receivedAcks[destination]` — including when its destination has never acked
anything — and everything re-queued arises this way. -/
theorem handleRayAck_retransmit_gate :
    (∀ now out rps,
      retransmitOutstanding now [] out rps = ([], out, rps)) ∧
    (∀ now acks deadline (p : RayPacket) rest rps, now < deadline →
      retransmitOutstanding now acks ((deadline, p) :: rest) rps
        = (acks, (deadline, p) :: rest, rps)) ∧
    (∀ now acks deadline (p : RayPacket) rest rps, acks ≠ [] →
      deadline ≤ now →
      p.sequenceNumber ∉ lookupD acks p.destination [] →
      retransmitPacket p
        ∈ (retransmitOutstanding now acks ((deadline, p) :: rest) rps).2.2) ∧
    (∀ now acks out rps (q : RayPacket),
      q ∈ (retransmitOutstanding now acks out rps).2.2 →
      q ∈ rps ∨ (acks ≠ [] ∧
        ∃ deadline p, (deadline, p) ∈ out ∧ deadline ≤ now ∧
          q = retransmitPacket p)) := by
  refine ⟨?_, ?_, ?_, ?_⟩
  · intro now out rps
    cases out with
    | nil => rfl
    | cons hd rest => obtain ⟨d, p⟩ := hd; simp [retransmitOutstanding]
  · intro now acks deadline p rest rps hlt
    have hnle : ¬(deadline ≤ now) := by omega
    simp [retransmitOutstanding, hnle]
  · intro now acks deadline p rest rps hne hle hnmem
    have hg : acks ≠ [] ∧ deadline ≤ now := ⟨hne, hle⟩
    simp only [retransmitOutstanding, if_pos hg, if_neg hnmem]
    exact mem_retransmitOutstanding_of_mem now rest _ _ _
      (List.mem_append_right _ (List.mem_singleton.mpr rfl))
  · intro now acks out
    induction out generalizing acks with
    | nil =>
        intro rps q hq
        exact Or.inl (by simpa [retransmitOutstanding] using hq)
    | cons hd rest ih =>
        intro rps q hq
        obtain ⟨deadline, p⟩ := hd
        by_cases hg : acks ≠ [] ∧ deadline ≤ now
        · by_cases hmem : p.sequenceNumber ∈ lookupD acks p.destination []
          · simp only [retransmitOutstanding, if_pos hg, if_pos hmem] at hq
            rcases ih _ rps q hq with hl | ⟨_, dl, p0, hmem0, hle0, hqeq⟩
            · exact Or.inl hl
            · exact Or.inr ⟨hg.1, dl, p0, List.mem_cons_of_mem _ hmem0,
                hle0, hqeq⟩
          · simp only [retransmitOutstanding, if_pos hg, if_neg hmem] at hq
            rcases ih _ (rps ++ [retransmitPacket p]) q hq with
              hl | ⟨_, dl, p0, hmem0, hle0, hqeq⟩
            · rcases List.mem_append.mp hl with hl0 | hl1
              · exact Or.inl hl0
              · exact Or.inr ⟨hg.1, deadline, p,
                  List.mem_cons_self _ _, hg.2,
                  (List.mem_singleton.mp hl1)⟩
            · exact Or.inr ⟨hg.1, dl, p0, List.mem_cons_of_mem _ hmem0,
                hle0, hqeq⟩
        · simp only [retransmitOutstanding, if_neg hg] at hq
          exact Or.inl hq

/-- Witness for C1 (amended): `cxPacket`, timed out at `now = 0` with an ack
recorded from source 5 only, is re-queued. -/
theorem handleRayAck_retransmit_gate_witness :
    retransmitPacket cxPacket
      ∈ (retransmitOutstanding 0 [(5, [1])] [(0, cxPacket)] []).2.2 :=
  handleRayAck_retransmit_gate.2.2.1 0 [(5, [1])] 0 cxPacket [] []
    (by decide) (by decide) (by decide)

namespace PbrtWorker

theorem handleOutQueuePackets_seq_lb (dest destId treelet : Nat)
    (reliable : Bool) (bd : Nat → Bool) :
    ∀ (carry : Option Nat) (rays : List Nat) (seq : Nat) (p : RayPacket),
      p ∈ (handleOutQueuePackets dest destId treelet reliable bd
        carry rays seq).1 → seq ≤ p.sequenceNumber := by
  intro carry rays seq
  induction carry, rays, seq
    using handleOutQueuePackets.induct dest destId treelet reliable bd with
  | case1 u outRays seq res ih =>
      intro p hp
      simp only [handleOutQueuePackets] at hp
      rcases List.mem_cons.mp hp with rfl | hmem
      · simp [mkRayPacket]
      · exact Nat.le_of_succ_le (ih p hmem)
  | case2 r outRays0 seq res ih =>
      intro p hp
      simp only [handleOutQueuePackets] at hp
      rcases List.mem_cons.mp hp with rfl | hmem
      · simp [mkRayPacket]
      · exact Nat.le_of_succ_le (ih p hmem)
  | case3 seq =>
      intro p hp
      simp [handleOutQueuePackets] at hp

theorem handleOutQueuePackets_seq_pairwise (dest destId treelet : Nat)
    (reliable : Bool) (bd : Nat → Bool) :
    ∀ (carry : Option Nat) (rays : List Nat) (seq : Nat),
      List.Pairwise (fun a b => a < b)
        (((handleOutQueuePackets dest destId treelet reliable bd
          carry rays seq).1).map RayPacket.sequenceNumber) := by
  intro carry rays seq
  induction carry, rays, seq
    using handleOutQueuePackets.induct dest destId treelet reliable bd with
  | case1 u outRays seq res ih =>
      simp only [handleOutQueuePackets, List.map_cons]
      refine List.Pairwise.cons ?_ ih
      intro b hb
      obtain ⟨q, hq, rfl⟩ := List.mem_map.mp hb
      have := handleOutQueuePackets_seq_lb dest destId treelet reliable bd
        _ _ (seq + 1) q hq
      simp only [mkRayPacket]
      omega
  | case2 r outRays0 seq res ih =>
      simp only [handleOutQueuePackets, List.map_cons]
      refine List.Pairwise.cons ?_ ih
      intro b hb
      obtain ⟨q, hq, rfl⟩ := List.mem_map.mp hb
      have := handleOutQueuePackets_seq_lb dest destId treelet reliable bd
        _ _ (seq + 1) q hq
      simp only [mkRayPacket]
      omega
  | case3 seq =>
      simp [handleOutQueuePackets]

theorem handleOutQueuePackets_final_seq (dest destId treelet : Nat)
    (reliable : Bool) (bd : Nat → Bool) :
    ∀ (carry : Option Nat) (rays : List Nat) (seq : Nat),
      (handleOutQueuePackets dest destId treelet reliable bd
          carry rays seq).2
        = seq + (handleOutQueuePackets dest destId treelet reliable bd
            carry rays seq).1.length := by
  intro carry rays seq
  induction carry, rays, seq
    using handleOutQueuePackets.induct dest destId treelet reliable bd with
  | case1 u outRays seq res ih =>
      unfold res at ih
      simp only [handleOutQueuePackets, List.length_cons]
      omega
  | case2 r outRays0 seq res ih =>
      unfold res at ih
      simp only [handleOutQueuePackets, List.length_cons]
      omega
  | case3 seq =>
      simp [handleOutQueuePackets]

end PbrtWorker

/-- C3: for every destination address, ray packets assembled by
`handleOutQueue` to that address carry strictly increasing sequence numbers
taken from `sequenceNumbers[peer.address[0]]` (incremented once per packet —
the final counter value is the starting one plus the number of packets
built), and a packet re-queued for retransmission by
`handleRayAcknowledgements` keeps its original sequence number and
destination unchanged, only its attempt count and retransmission flag being
updated. -/
theorem outQueue_seqNos_strictly_increasing :
    (∀ dest destId treelet reliable bd carry rays seq,
      List.Pairwise (fun a b => a < b)
        (((handleOutQueuePackets dest destId treelet reliable bd
          carry rays seq).1).map RayPacket.sequenceNumber)) ∧
    (∀ dest destId treelet reliable bd carry rays seq,
      (handleOutQueuePackets dest destId treelet reliable bd
          carry rays seq).2
        = seq + (handleOutQueuePackets dest destId treelet reliable bd
            carry rays seq).1.length) ∧
    (∀ p : RayPacket,
      (retransmitPacket p).sequenceNumber = p.sequenceNumber ∧
      (retransmitPacket p).destination = p.destination ∧
      (retransmitPacket p).destinationId = p.destinationId ∧
      (retransmitPacket p).targetTreelet = p.targetTreelet ∧
      (retransmitPacket p).raySizes = p.raySizes ∧
      (retransmitPacket p).rayCount = p.rayCount ∧
      (retransmitPacket p).reliable = p.reliable ∧
      (retransmitPacket p).tracked = p.tracked ∧
      (retransmitPacket p).attempt = p.attempt + 1 ∧
      (retransmitPacket p).retransmission = true) :=
  ⟨fun dest destId treelet reliable bd carry rays seq =>
    handleOutQueuePackets_seq_pairwise dest destId treelet reliable bd
      carry rays seq,
   fun dest destId treelet reliable bd carry rays seq =>
    handleOutQueuePackets_final_seq dest destId treelet reliable bd
      carry rays seq,
   fun _ => ⟨rfl, rfl, rfl, rfl, rfl, rfl, rfl, rfl, rfl, rfl⟩⟩

namespace PbrtWorker

theorem packRays_payload_le (rays : List Nat) :
    ∀ (pl : Nat) (acc : List Nat),
      ((acc.map (fun r => r + 4)).sum ≤ pl) → pl ≤ UDP_MTU_BYTES →
      (((packRays pl acc rays).1).map (fun r => r + 4)).sum
        ≤ UDP_MTU_BYTES := by
  induction rays with
  | nil =>
      intro pl acc hacc hpl
      simpa [packRays] using le_trans hacc hpl
  | cons r rest ih =>
      intro pl acc hacc hpl
      by_cases h1 : pl < UDP_MTU_BYTES
      · by_cases h2 : r + 4 + pl > UDP_MTU_BYTES
        · have heq : packRays pl acc (r :: rest) = (acc, some r, rest) := by
            simp [packRays, h1, h2]
          rw [heq]
          exact le_trans hacc hpl
        · have heq : packRays pl acc (r :: rest)
              = packRays (pl + (r + 4)) (acc ++ [r]) rest := by
            simp [packRays, h1, h2]
          rw [heq]
          refine ih (pl + (r + 4)) (acc ++ [r]) ?_ (by omega)
          simp only [List.map_append, List.sum_append]
          simp only [List.map_cons, List.map_nil, List.sum_cons,
            List.sum_nil]
          omega
      · have heq : packRays pl acc (r :: rest) = (acc, none, r :: rest) := by
          simp [packRays, h1]
        rw [heq]
        exact le_trans hacc hpl

theorem packRays_split (rays : List Nat) :
    ∀ (pl : Nat) (acc : List Nat),
      (packRays pl acc rays).1 ++ (packRays pl acc rays).2.1.toList
          ++ (packRays pl acc rays).2.2 = acc ++ rays := by
  induction rays with
  | nil => intro pl acc; simp [packRays]
  | cons r rest ih =>
      intro pl acc
      by_cases h1 : pl < UDP_MTU_BYTES
      · by_cases h2 : r + 4 + pl > UDP_MTU_BYTES
        · have heq : packRays pl acc (r :: rest) = (acc, some r, rest) := by
            simp [packRays, h1, h2]
          simp [heq]
        · have heq : packRays pl acc (r :: rest)
              = packRays (pl + (r + 4)) (acc ++ [r]) rest := by
            simp [packRays, h1, h2]
          rw [heq, ih (pl + (r + 4)) (acc ++ [r])]
          simp
      · have heq : packRays pl acc (r :: rest) = (acc, none, r :: rest) := by
          simp [packRays, h1]
        simp [heq]

theorem packRays_leftover_mem (rays : List Nat) :
    ∀ (pl : Nat) (acc : List Nat),
      (∀ x ∈ (packRays pl acc rays).2.2, x ∈ rays) ∧
        (∀ u, (packRays pl acc rays).2.1 = some u → u ∈ rays) := by
  induction rays with
  | nil => intro pl acc; simp [packRays]
  | cons r rest ih =>
      intro pl acc
      by_cases h1 : pl < UDP_MTU_BYTES
      · by_cases h2 : r + 4 + pl > UDP_MTU_BYTES
        · have heq : packRays pl acc (r :: rest) = (acc, some r, rest) := by
            simp [packRays, h1, h2]
          rw [heq]
          constructor
          · intro x hx
            exact List.mem_cons_of_mem _ hx
          · intro u hu
            simp only [Option.some.injEq] at hu
            subst hu
            exact List.mem_cons_self _ _
        · have heq : packRays pl acc (r :: rest)
              = packRays (pl + (r + 4)) (acc ++ [r]) rest := by
            simp [packRays, h1, h2]
          rw [heq]
          constructor
          · intro x hx
            exact List.mem_cons_of_mem _
              ((ih (pl + (r + 4)) (acc ++ [r])).1 x hx)
          · intro u hu
            exact List.mem_cons_of_mem _
              ((ih (pl + (r + 4)) (acc ++ [r])).2 u hu)
      · have heq : packRays pl acc (r :: rest) = (acc, none, r :: rest) := by
          simp [packRays, h1]
        rw [heq]
        exact ⟨fun x hx => hx, fun u hu => by simp at hu⟩

theorem handleOutQueuePackets_payload_le (dest destId treelet : Nat)
    (reliable : Bool) (bd : Nat → Bool) :
    ∀ (carry : Option Nat) (rays : List Nat) (seq : Nat),
      (∀ r ∈ rays, r + 4 + 25 ≤ UDP_MTU_BYTES) →
      (∀ u, carry = some u → u + 4 + 25 ≤ UDP_MTU_BYTES) →
      ∀ p ∈ (handleOutQueuePackets dest destId treelet reliable bd
          carry rays seq).1, payloadLength p ≤ UDP_MTU_BYTES := by
  intro carry rays seq
  induction carry, rays, seq
    using handleOutQueuePackets.induct dest destId treelet reliable bd with
  | case1 u outRays seq res ih =>
      intro hb hc p hp
      simp only [handleOutQueuePackets] at hp
      rcases List.mem_cons.mp hp with rfl | hmem
      · have hu : u + 4 + 25 ≤ UDP_MTU_BYTES := hc u rfl
        have hle := packRays_payload_le outRays (u + 4) [u]
          (by simp) (by unfold UDP_MTU_BYTES at hu ⊢; omega)
        simpa [mkRayPacket, payloadLength] using hle
      · refine ih ?_ ?_ p hmem
        · intro r hr
          exact hb r ((packRays_leftover_mem outRays (u + 4) [u]).1 r hr)
        · intro v hv
          exact hb v ((packRays_leftover_mem outRays (u + 4) [u]).2 v hv)
  | case2 r outRays0 seq res ih =>
      intro hb hc p hp
      simp only [handleOutQueuePackets] at hp
      rcases List.mem_cons.mp hp with rfl | hmem
      · have hle := packRays_payload_le (r :: outRays0) 25 []
          (by simp) (by unfold UDP_MTU_BYTES; omega)
        simpa [mkRayPacket, payloadLength] using hle
      · refine ih ?_ ?_ p hmem
        · intro x hx
          exact hb x ((packRays_leftover_mem (r :: outRays0) 25 []).1 x hx)
        · intro v hv
          exact hb v ((packRays_leftover_mem (r :: outRays0) 25 []).2 v hv)
  | case3 seq =>
      intro hb hc p hp
      simp [handleOutQueuePackets] at hp

theorem handleOutQueuePackets_flatten (dest destId treelet : Nat)
    (reliable : Bool) (bd : Nat → Bool) :
    ∀ (carry : Option Nat) (rays : List Nat) (seq : Nat),
      (((handleOutQueuePackets dest destId treelet reliable bd
          carry rays seq).1).map RayPacket.raySizes).flatten
        = carry.toList ++ rays := by
  intro carry rays seq
  induction carry, rays, seq
    using handleOutQueuePackets.induct dest destId treelet reliable bd with
  | case1 u outRays seq res ih =>
      unfold res at ih
      simp only [handleOutQueuePackets, List.map_cons, List.flatten_cons,
        mkRayPacket, ih]
      have hs := packRays_split outRays (u + 4) [u]
      simp only [List.append_assoc] at hs
      simpa using hs
  | case2 r outRays0 seq res ih =>
      unfold res at ih
      simp only [handleOutQueuePackets, List.map_cons, List.flatten_cons,
        mkRayPacket, ih]
      have hs := packRays_split (r :: outRays0) 25 []
      simp only [List.append_assoc] at hs
      simpa using hs
  | case3 seq =>
      simp [handleOutQueuePackets]

end PbrtWorker

/-- Counterexample for C2: with serialized ray lengths 647, 696 and 646 —
each small enough to fit a fresh packet — the second assembled packet starts
with the carried-over 696-byte ray and packs the 646-byte ray after it, so
counting the 4-byte length prefixes *and* the 25-byte minimum header budget
its size is 25 + 700 + 650 = 1375 > 1350 = `UDP_MTU_BYTES`: the claimed
bound fails, because a packet that starts with a carried-over ray resets
`packetLen` to the framed ray length and forgoes the 25-byte budget. -/
theorem outQueue_packet_payload_counterexample :
    (∀ r ∈ [647, 696, 646], r + 4 + 25 ≤ UDP_MTU_BYTES) ∧
      cxPackets.length = 2 ∧
      (cxPackets.getD 1 dummyPacket).raySizes = [696, 646] ∧
      25 + payloadLength (cxPackets.getD 1 dummyPacket) = 1375 ∧
      ¬(25 + payloadLength (cxPackets.getD 1 dummyPacket)
          ≤ UDP_MTU_BYTES) := by
  refine ⟨by decide, ?_, ?_, ?_, ?_⟩ <;>
    simp [cxPackets, handleOutQueuePackets, packRays, mkRayPacket,
      UDP_MTU_BYTES, payloadLength, dummyPacket]

/-- C2 (amended): provided every serialized ray fits a fresh packet
(`|ray| + 4 + 25 ≤ UDP_MTU_BYTES`), every ray packet constructed by
`handleOutQueue` has a payload of at most `UDP_MTU_BYTES = 1350` bytes
counting each ray's 4-byte length prefix (the 25-byte header budget is
charged only to packets that start fresh, not to packets that start with a
carried-over ray, whose payload plus budget may reach 1375); a ray whose
addition would push the packet past the MTU is held back and becomes the
first ray of the next packet for the same peer, and no ray is dropped
during assembly: the packets' ray lists concatenate, in order, to exactly
the input queue. -/
theorem outQueue_packet_payload_bounded (dest destId treelet : Nat)
    (reliable : Bool) (bd : Nat → Bool) (rays : List Nat) (seq : Nat)
    (hb : ∀ r ∈ rays, r + 4 + 25 ≤ UDP_MTU_BYTES) :
    (∀ p ∈ (handleOutQueuePackets dest destId treelet reliable bd
        none rays seq).1, payloadLength p ≤ UDP_MTU_BYTES) ∧
      (((handleOutQueuePackets dest destId treelet reliable bd
          none rays seq).1).map RayPacket.raySizes).flatten = rays :=
  by
  refine ⟨handleOutQueuePackets_payload_le dest destId treelet reliable bd
    none rays seq hb (fun u hu => by simp at hu), ?_⟩
  simpa using handleOutQueuePackets_flatten dest destId treelet reliable bd
    none rays seq

/-- Witness for C2 (amended) on the serialized ray lengths 647, 696, 646:
every assembled packet's payload is within the MTU and the three rays
survive assembly in order. -/
theorem outQueue_packet_payload_bounded_witness :
    (∀ p ∈ cxPackets, payloadLength p ≤ UDP_MTU_BYTES) ∧
      (cxPackets.map RayPacket.raySizes).flatten = [647, 696, 646] := by
  have h := outQueue_packet_payload_bounded 0 1 2 true (fun _ => false)
    [647, 696, 646] 0 (by decide)
  exact ⟨h.1, h.2⟩

namespace PbrtWorker

theorem announceTreelet_sizes (wid : Nat) (st : WorkerState) (t : Nat) :
    (announceTreelet wid st t).outQueueSize
        = st.outQueueSize + (lookupD st.pendingQueue t []).length ∧
      (announceTreelet wid st t).pendingQueueSize
        = st.pendingQueueSize - (lookupD st.pendingQueue t []).length := by
  simp only [announceTreelet]
  cases hpq : lookupO st.pendingQueue t with
  | none => simp [lookupD, hpq]
  | some pend => simp [lookupD, hpq]

theorem announceTreelet_self (wid : Nat) (st : WorkerState) (t : Nat) :
    lookupD (announceTreelet wid st t).treeletToWorker t []
        = lookupD st.treeletToWorker t [] ++ [wid] ∧
      t ∉ (announceTreelet wid st t).neededTreelets ∧
      t ∉ (announceTreelet wid st t).requestedTreelets ∧
      lookupD (announceTreelet wid st t).pendingQueue t [] = [] ∧
      lookupD (announceTreelet wid st t).outQueue t []
        = lookupD st.outQueue t [] ++ lookupD st.pendingQueue t [] := by
  simp only [announceTreelet]
  cases hpq : lookupO st.pendingQueue t with
  | none =>
      simp only []
      refine ⟨lookupD_appendAt_self _ _ _, not_mem_eraseSet _ _,
        not_mem_eraseSet _ _, ?_, ?_⟩
      · simp [lookupD, hpq]
      · simp [lookupD, hpq]
  | some pend =>
      simp only []
      refine ⟨lookupD_appendAt_self _ _ _, not_mem_eraseSet _ _,
        not_mem_eraseSet _ _, lookupD_setAt_self _ _ _ _, ?_⟩
      rw [lookupD_appendListAt_self]
      simp [lookupD, hpq]

theorem announceTreelet_other (wid : Nat) (st : WorkerState) (t0 t : Nat)
    (hne : t0 ≠ t) :
    lookupD (announceTreelet wid st t0).treeletToWorker t []
        = lookupD st.treeletToWorker t [] ∧
      lookupD (announceTreelet wid st t0).pendingQueue t []
        = lookupD st.pendingQueue t [] ∧
      lookupD (announceTreelet wid st t0).outQueue t []
        = lookupD st.outQueue t [] := by
  simp only [announceTreelet]
  cases hpq : lookupO st.pendingQueue t0 with
  | none =>
      exact ⟨lookupD_appendAt_ne _ _ _ _ hne, rfl, rfl⟩
  | some pend =>
      exact ⟨lookupD_appendAt_ne _ _ _ _ hne,
        lookupD_setAt_ne _ _ _ _ _ hne,
        lookupD_appendListAt_ne _ _ _ _ hne⟩

theorem announceTreelet_not_mem_sets (wid : Nat) (st : WorkerState)
    (t0 t : Nat) :
    (t ∉ st.neededTreelets → t ∉ (announceTreelet wid st t0).neededTreelets) ∧
      (t ∉ st.requestedTreelets →
        t ∉ (announceTreelet wid st t0).requestedTreelets) := by
  simp only [announceTreelet]
  cases hpq : lookupO st.pendingQueue t0 with
  | none =>
      exact ⟨not_mem_eraseSet_of_not_mem _ _ _,
        not_mem_eraseSet_of_not_mem _ _ _⟩
  | some pend =>
      exact ⟨not_mem_eraseSet_of_not_mem _ _ _,
        not_mem_eraseSet_of_not_mem _ _ _⟩

theorem foldl_announce_preserves (wid : Nat) (ts : List Nat) :
    ∀ (st : WorkerState) (t : Nat), t ∉ ts →
      lookupD (ts.foldl (announceTreelet wid) st).treeletToWorker t []
          = lookupD st.treeletToWorker t [] ∧
        lookupD (ts.foldl (announceTreelet wid) st).pendingQueue t []
          = lookupD st.pendingQueue t [] ∧
        lookupD (ts.foldl (announceTreelet wid) st).outQueue t []
          = lookupD st.outQueue t [] := by
  induction ts with
  | nil => intro st t _; exact ⟨rfl, rfl, rfl⟩
  | cons t0 rest ih =>
      intro st t hnot
      have hne : t0 ≠ t := fun h => hnot (h ▸ List.mem_cons_self t0 rest)
      have hrest : t ∉ rest := fun h => hnot (List.mem_cons_of_mem _ h)
      have h1 := announceTreelet_other wid st t0 t hne
      have h2 := ih (announceTreelet wid st t0) t hrest
      simp only [List.foldl_cons]
      exact ⟨h2.1.trans h1.1, h2.2.1.trans h1.2.1, h2.2.2.trans h1.2.2⟩

theorem foldl_announce_not_mem_sets (wid : Nat) (ts : List Nat) :
    ∀ (st : WorkerState) (t : Nat),
      (t ∉ st.neededTreelets →
        t ∉ (ts.foldl (announceTreelet wid) st).neededTreelets) ∧
      (t ∉ st.requestedTreelets →
        t ∉ (ts.foldl (announceTreelet wid) st).requestedTreelets) := by
  induction ts with
  | nil => intro st t; exact ⟨id, id⟩
  | cons t0 rest ih =>
      intro st t
      simp only [List.foldl_cons]
      constructor
      · intro h
        exact (ih (announceTreelet wid st t0) t).1
          ((announceTreelet_not_mem_sets wid st t0 t).1 h)
      · intro h
        exact (ih (announceTreelet wid st t0) t).2
          ((announceTreelet_not_mem_sets wid st t0 t).2 h)

theorem foldl_announce_sizes (wid : Nat) (ts : List Nat) :
    ∀ (st : WorkerState), ts.Nodup →
      (ts.foldl (announceTreelet wid) st).outQueueSize
          = st.outQueueSize
              + (ts.map (fun x => (lookupD st.pendingQueue x []).length)).sum ∧
        (ts.foldl (announceTreelet wid) st).pendingQueueSize
          = st.pendingQueueSize
              - (ts.map (fun x => (lookupD st.pendingQueue x []).length)).sum := by
  induction ts with
  | nil => intro st _; simp
  | cons t0 rest ih =>
      intro st hnd
      have hnotin : t0 ∉ rest := (List.nodup_cons.mp hnd).1
      have hndr : rest.Nodup := (List.nodup_cons.mp hnd).2
      have hstep := announceTreelet_sizes wid st t0
      have hmap : rest.map
            (fun x => (lookupD (announceTreelet wid st t0).pendingQueue
              x []).length)
          = rest.map (fun x => (lookupD st.pendingQueue x []).length) := by
        refine List.map_congr_left ?_
        intro x hx
        have hne : t0 ≠ x := fun h => hnotin (h ▸ hx)
        rw [(announceTreelet_other wid st t0 x hne).2.1]
      have hrec := ih (announceTreelet wid st t0) hndr
      rw [hmap] at hrec
      simp only [List.foldl_cons, List.map_cons, List.sum_cons]
      constructor
      · rw [hrec.1, hstep.1]
        omega
      · rw [hrec.2, hstep.2]
        omega

theorem foldl_announce_at_mem (wid : Nat) (ts : List Nat)
    (st : WorkerState) (t : Nat) (hnd : ts.Nodup) (ht : t ∈ ts) :
    lookupD (ts.foldl (announceTreelet wid) st).treeletToWorker t []
        = lookupD st.treeletToWorker t [] ++ [wid] ∧
      t ∉ (ts.foldl (announceTreelet wid) st).neededTreelets ∧
      t ∉ (ts.foldl (announceTreelet wid) st).requestedTreelets ∧
      lookupD (ts.foldl (announceTreelet wid) st).pendingQueue t [] = [] ∧
      lookupD (ts.foldl (announceTreelet wid) st).outQueue t []
        = lookupD st.outQueue t [] ++ lookupD st.pendingQueue t [] := by
  obtain ⟨pre, post, rfl⟩ := List.append_of_mem ht
  have hsplit := List.nodup_append.mp hnd
  have htpre : t ∉ pre := fun hin =>
    hsplit.2.2 hin (List.mem_cons_self t post)
  have htpost : t ∉ post := (List.nodup_cons.mp hsplit.2.1).1
  rw [List.foldl_append, List.foldl_cons]
  have hpre := foldl_announce_preserves wid pre st t htpre
  set st0 := pre.foldl (announceTreelet wid) st with hst0
  have hself := announceTreelet_self wid st0 t
  set stA := announceTreelet wid st0 t with hstA
  have hpost := foldl_announce_preserves wid post stA t htpost
  have hpsets := foldl_announce_not_mem_sets wid post stA t
  refine ⟨?_, ?_, ?_, ?_, ?_⟩
  · rw [hpost.1, hself.1, hpre.1]
  · exact hpsets.1 hself.2.1
  · exact hpsets.2 hself.2.2.1
  · rw [hpost.2.1, hself.2.2.2.1]
  · rw [hpost.2.2, hself.2.2.2.2, hpre.2.1, hpre.2.2]

theorem respondPeer_completes (mySeed now : Nat) (p : Worker) (ms : Nat)
    (i : Fin 2) (hstate : p.state ≠ PeerState.Connected)
    (hother : (if i = 0 then p.connected1 else p.connected0) = true) :
    (respondPeer mySeed now p ms mySeed i).state = PeerState.Connected := by
  obtain ⟨sd, stt, c0, c1, ts, ka, tr⟩ := p
  cases stt <;> cases c0 <;> cases c1 <;> fin_cases i <;>
    simp_all [respondPeer, markConnected]

end PbrtWorker

/-- C5: when a peer first announces a treelet `t` — via the
`ConnectionResponse` whose `your_seed` matches `mySeed` and which completes
the two-interface handshake (the other interface being already connected) —
the peer is recorded in `treeletToWorker[t]`, `t` is removed from both
`neededTreelets` and `requestedTreelets`, and every ray in `pendingQueue[t]`
is moved in FIFO order to `outQueue[t]`, with `pendingQueueSize` decreased
and `outQueueSize` increased by exactly the number of moved rays. -/
theorem connectionResponse_promotes_pending (now : Nat) (st : WorkerState)
    (proto : ConnectResponse) (peer : Worker) (t : Nat)
    (hpeer : lookupO st.peers proto.workerId = some peer)
    (hstate : peer.state ≠ PeerState.Connected)
    (hseed : proto.yourSeed = st.mySeed)
    (hother : (if proto.addressNo = 0 then peer.connected1
               else peer.connected0) = true)
    (hnd : proto.treeletIds.Nodup)
    (ht : t ∈ proto.treeletIds)
    (hsum : (proto.treeletIds.map
          (fun x => (lookupD st.pendingQueue x []).length)).sum
        ≤ st.pendingQueueSize) :
    lookupD (processConnectionResponse now st proto).treeletToWorker t []
        = lookupD st.treeletToWorker t [] ++ [proto.workerId] ∧
      t ∉ (processConnectionResponse now st proto).neededTreelets ∧
      t ∉ (processConnectionResponse now st proto).requestedTreelets ∧
      lookupD (processConnectionResponse now st proto).pendingQueue t []
        = [] ∧
      lookupD (processConnectionResponse now st proto).outQueue t []
        = lookupD st.outQueue t [] ++ lookupD st.pendingQueue t [] ∧
      (processConnectionResponse now st proto).outQueueSize
        = st.outQueueSize + (proto.treeletIds.map
            (fun x => (lookupD st.pendingQueue x []).length)).sum ∧
      (processConnectionResponse now st proto).pendingQueueSize
          + (proto.treeletIds.map
            (fun x => (lookupD st.pendingQueue x []).length)).sum
        = st.pendingQueueSize := by
  have hc2 : (respondPeer st.mySeed now peer proto.mySeed proto.yourSeed
      proto.addressNo).state = PeerState.Connected := by
    rw [hseed]
    exact respondPeer_completes st.mySeed now peer proto.mySeed
      proto.addressNo hstate hother
  have hred : processConnectionResponse now st proto
      = proto.treeletIds.foldl (announceTreelet proto.workerId)
          { st with peers := (setAt st.peers proto.workerId
            (respondPeer st.mySeed now peer proto.mySeed proto.yourSeed
              proto.addressNo)) } := by
    simp only [processConnectionResponse, hpeer]
    rw [if_pos ⟨hstate, hseed, hc2⟩]
  have hmem := foldl_announce_at_mem proto.workerId proto.treeletIds
    { st with peers := (setAt st.peers proto.workerId
      (respondPeer st.mySeed now peer proto.mySeed proto.yourSeed
        proto.addressNo)) } t hnd ht
  have hsz := foldl_announce_sizes proto.workerId proto.treeletIds
    { st with peers := (setAt st.peers proto.workerId
      (respondPeer st.mySeed now peer proto.mySeed proto.yourSeed
        proto.addressNo)) } hnd
  have hout : (processConnectionResponse now st proto).outQueueSize
      = st.outQueueSize + (proto.treeletIds.map
          (fun x => (lookupD st.pendingQueue x []).length)).sum := by
    rw [hred]; exact hsz.1
  have hpend : (processConnectionResponse now st proto).pendingQueueSize
      = st.pendingQueueSize - (proto.treeletIds.map
          (fun x => (lookupD st.pendingQueue x []).length)).sum := by
    rw [hred]; exact hsz.2
  refine ⟨?_, ?_, ?_, ?_, ?_, hout, ?_⟩
  · rw [hred]; exact hmem.1
  · rw [hred]; exact hmem.2.1
  · rw [hred]; exact hmem.2.2.1
  · rw [hred]; exact hmem.2.2.2.1
  · rw [hred]; exact hmem.2.2.2.2
  · rw [hpend]; omega

/-- Witness for C5: peer 7, already connected on interface 0, completes the
handshake announcing treelet 5; the pending ray is promoted and the counters
move by one. -/
theorem connectionResponse_promotes_pending_witness :
    lookupD (processConnectionResponse 0 cxPromoteState
        cxPromoteProto).outQueue 5 [] = [⟨5, 0⟩] ∧
      lookupD (processConnectionResponse 0 cxPromoteState
        cxPromoteProto).pendingQueue 5 [] = [] ∧
      (processConnectionResponse 0 cxPromoteState
        cxPromoteProto).outQueueSize = 1 ∧
      (processConnectionResponse 0 cxPromoteState
          cxPromoteProto).pendingQueueSize = 0 ∧
      5 ∉ (processConnectionResponse 0 cxPromoteState
        cxPromoteProto).neededTreelets ∧
      lookupD (processConnectionResponse 0 cxPromoteState
        cxPromoteProto).treeletToWorker 5 [] = [7] := by
  have h := connectionResponse_promotes_pending 0 cxPromoteState
    cxPromoteProto cxPeerHalf 5 (by decide) (by decide) (by decide)
    (by decide) (by decide) (by decide) (by decide)
  refine ⟨?_, h.2.2.2.1, ?_, ?_, h.2.1, ?_⟩
  · rw [h.2.2.2.2.1]; rfl
  · rw [h.2.2.2.2.2.1]; rfl
  · decide
  · rw [h.1]; rfl
